import Mathlib

/-! Windmill: a shallow embedding of `src/main.cpp`.

Modelling conventions.

* C++ `float` values are modelled by `F32`: a finite value is a rational, and
  there are the two infinities and NaN.  Every arithmetic operation computes
  the exact rational result and rounds it to IEEE 754 binary32 (24-bit
  significand, exponents `-126 .. 127`, subnormals, round to nearest with ties
  to even, overflow to infinity) with `rnd`.  The two zeros are identified: a
  division of a non-zero value by zero gives the infinity with the sign of the
  numerator.  Each operation is rounded on its own (no fused multiply-add, no
  excess precision).
* C++ `int` values are modelled as `Int`.  The conversion `(int) f` of a float
  truncates toward zero and is undefined when the value is not finite or the
  truncated value does not fit in a 32-bit `int`; it is modelled by
  `float_to_int`, which fails (`none`) in that case.  The conversion of an
  `int` to `float` rounds (`F32.ofInt`).
* Mutable state (the globals of `namespace Projection`, the fields of
  `class Windmill`, a `mesh` with its vertex buffer) is passed explicitly.
* The library calls `rand()` and `SDL_GetMouseState` are inputs of the model:
  the stream of values returned by `rand()` and the cursor position read at
  an event.
-/

namespace WindmillModel

/-! ## Constants -/

/-- Screen width in pixels: `const int SCREEN_WIDTH = 640`. -/
def SCREEN_WIDTH : Int := 640

/-- Screen height in pixels: `const int SCREEN_HEIGHT = 640`. -/
def SCREEN_HEIGHT : Int := 640

/-- Smallest value of a 32-bit `int`. -/
def INT_MIN : Int := -2147483648

/-- Largest value of a 32-bit `int`. -/
def INT_MAX : Int := 2147483647

/-! ## Binary32 arithmetic -/

/-- A C++ `float`: a finite value, plus or minus infinity, or NaN. -/
inductive F32 where
  | fin (q : ℚ)
  | pinf
  | ninf
  | nan
  deriving DecidableEq, Repr

/-- The integer nearest to `x`, the even one of the two when `x` lies halfway. -/
def roundHalfEven (x : ℚ) : Int :=
  if x - ⌊x⌋ < 1 / 2 then ⌊x⌋
  else if x - ⌊x⌋ > 1 / 2 then ⌊x⌋ + 1
  else if ⌊x⌋ % 2 = 0 then ⌊x⌋ else ⌊x⌋ + 1

/-- The binary32 exponent of a positive magnitude `a`: the `e` with
`2^e ≤ a < 2^(e+1)`, and `-126` for the subnormal magnitudes below `2^-126`. -/
def binade (a : ℚ) : Int := max (Int.log 2 a) (-126)

/-- The exponent of the unit in the last place at magnitude `a`: the
significand has 24 bits. -/
def ulpExp (a : ℚ) : Int := binade a - 23

/-- The magnitude `a ≥ 0` rounded to the nearest multiple of its unit in the
last place, ties to even; the exponent is not bounded above here. -/
def rndMag (a : ℚ) : ℚ := (roundHalfEven (a / 2 ^ ulpExp a) : ℚ) * 2 ^ ulpExp a

/-- The first magnitude that is no longer finite in binary32: `2^128`. -/
def overflowThreshold : ℚ := 2 ^ 128

/-- The largest finite binary32 value, `FLT_MAX = 2^128 - 2^104`. -/
def FLT_MAX : ℚ := 2 ^ 128 - 2 ^ 104

/-- Rounding of an exact result to binary32: round to nearest, ties to even; a
rounded magnitude of `2^128` or more becomes an infinity. -/
def rnd (q : ℚ) : F32 :=
  if 0 ≤ q then (if rndMag q < overflowThreshold then .fin (rndMag q) else .pinf)
  else (if rndMag (-q) < overflowThreshold then .fin (-rndMag (-q)) else .ninf)

namespace F32

/-- The conversion of an `int` to `float`. -/
def ofInt (i : Int) : F32 := rnd (i : ℚ)

/-- Float addition `a + b`. -/
def add : F32 → F32 → F32
  | nan, _ => nan
  | _, nan => nan
  | pinf, ninf => nan
  | ninf, pinf => nan
  | pinf, _ => pinf
  | _, pinf => pinf
  | ninf, _ => ninf
  | _, ninf => ninf
  | fin a, fin b => rnd (a + b)

/-- Float subtraction `a - b`. -/
def sub : F32 → F32 → F32
  | nan, _ => nan
  | _, nan => nan
  | pinf, pinf => nan
  | ninf, ninf => nan
  | pinf, _ => pinf
  | _, ninf => pinf
  | ninf, _ => ninf
  | _, pinf => ninf
  | fin a, fin b => rnd (a - b)

/-- Float multiplication `a * b`. -/
def mul : F32 → F32 → F32
  | nan, _ => nan
  | _, nan => nan
  | fin a, fin b => rnd (a * b)
  | fin a, pinf => if a = 0 then nan else if 0 < a then pinf else ninf
  | fin a, ninf => if a = 0 then nan else if 0 < a then ninf else pinf
  | pinf, fin b => if b = 0 then nan else if 0 < b then pinf else ninf
  | ninf, fin b => if b = 0 then nan else if 0 < b then ninf else pinf
  | pinf, pinf => pinf
  | ninf, ninf => pinf
  | pinf, ninf => ninf
  | ninf, pinf => ninf

/-- Float division `a / b`. -/
def div : F32 → F32 → F32
  | nan, _ => nan
  | _, nan => nan
  | fin a, fin b =>
    if b = 0 then (if a = 0 then nan else if 0 < a then pinf else ninf) else rnd (a / b)
  | fin _, pinf => fin 0
  | fin _, ninf => fin 0
  | pinf, fin b => if 0 ≤ b then pinf else ninf
  | ninf, fin b => if 0 ≤ b then ninf else pinf
  | pinf, pinf => nan
  | pinf, ninf => nan
  | ninf, pinf => nan
  | ninf, ninf => nan

/-- Float comparison `a < b`; false when an operand is NaN. -/
def lt : F32 → F32 → Bool
  | nan, _ => false
  | _, nan => false
  | fin a, fin b => decide (a < b)
  | fin _, pinf => true
  | fin _, ninf => false
  | pinf, _ => false
  | ninf, ninf => false
  | ninf, _ => true

/-- Float comparison `a <= b`; false when an operand is NaN. -/
def le : F32 → F32 → Bool
  | nan, _ => false
  | _, nan => false
  | fin a, fin b => decide (a ≤ b)
  | fin _, pinf => true
  | fin _, ninf => false
  | pinf, pinf => true
  | pinf, _ => false
  | ninf, _ => true

/-- Float comparison `a > b`. -/
def gt (a b : F32) : Bool := lt b a

/-- Float comparison `a >= b`. -/
def ge (a b : F32) : Bool := le b a

end F32

/-- The integer obtained from a finite float by discarding its fractional part,
as the C++ conversion `(int) f` does: the quotient of numerator by
denominator, rounded toward zero. -/
def truncate (v : ℚ) : Int := Int.tdiv v.num v.den

/-- The C++ conversion `(int) f`: the truncated value when `f` is finite and
the truncated value is representable as a 32-bit `int`, undefined (`none`)
otherwise. -/
def float_to_int : F32 → Option Int
  | .fin v => if INT_MIN ≤ truncate v ∧ truncate v ≤ INT_MAX then some (truncate v) else none
  | _ => none

/-- The implicit conversion of an `int` argument to the `Uint8` parameter of
`SDL_SetRenderDrawColor`: reduction modulo 256. -/
def toUint8 (i : Int) : Int := i % 256

/-- Truncation toward zero as the specification words it: the greatest integer
below a non-negative value, the least integer above a negative one. -/
def specTrunc (v : ℚ) : Int := if 0 ≤ v then ⌊v⌋ else ⌈v⌉

/-! ## `struct vec3f` -/

/-- A point of world space: `struct vec3f { float x, y, z; }`. -/
structure vec3f where
  x : F32
  y : F32
  z : F32
  deriving DecidableEq, Repr

/-! ## `namespace Projection` -/

/-- The globals of `namespace Projection`: the camera offset. -/
structure Projection where
  cameraX : F32
  cameraY : F32
  cameraZ : F32
  deriving DecidableEq, Repr

namespace Projection

/-- Zero-initialised globals `float cameraX, cameraY, cameraZ = 0`. -/
def initial : Projection := ⟨.fin 0, .fin 0, .fin 0⟩

/-- The body of `Projection::world_to_screen(int &outX, int &outY, float z)`:
the new values of `outX` and `outY`, or `none` when an `(int)` conversion is
undefined. -/
def world_to_screen (p : Projection) (outX outY : Int) (z : F32) : Option (Int × Int) := do
  let outX1 ← float_to_int
    (F32.add
      (F32.sub (F32.div (F32.ofInt outX) (F32.add z (F32.ofInt 1)))
        (F32.div p.cameraX (F32.add z (F32.ofInt 1))))
      (F32.ofInt (Int.tdiv SCREEN_WIDTH 2)))
  let outY1 ← float_to_int
    (F32.add
      (F32.sub (F32.div (F32.ofInt outY) (F32.add z (F32.ofInt 1)))
        (F32.div p.cameraY (F32.add z (F32.ofInt 1))))
      (F32.ofInt (Int.tdiv SCREEN_HEIGHT 2)))
  pure (outX1, outY1)

/-- The body of `Projection::adjust_camera(float relativeX, float relativeY)`. -/
def adjust_camera (p : Projection) (relativeX relativeY : F32) : Projection :=
  { p with cameraX := relativeX, cameraY := relativeY }

end Projection

/-! ## `namespace Utils` -/

namespace Utils

/-- The body of `Utils::clamp(float &value, float min, float max)`: the value
left in `value`, which is also the value returned. -/
def clamp (value min max : F32) : F32 :=
  if F32.lt value min then min
  else if F32.gt value max then max
  else value

/-- The arguments handed to `SDL_SetRenderDrawColor`: red, green, blue,
alpha. -/
structure BackendColor where
  r : Int
  g : Int
  b : Int
  a : Int
  deriving DecidableEq, Repr

/-- The body of the nine-argument `Utils::draw_color`.  The local `aa` is
read in its own initialiser (`float aa = aa * 255`), so its first value is
indeterminate: it is the extra argument `aa0`, any float, NaN included.  The
local `ba` is computed and never read. -/
def draw_color_blend (r g b a r2 g2 b2 a2 progress : F32) (aa0 : F32) :
    Option BackendColor := do
  let rb := F32.mul progress (F32.sub r2 r)
  let gb := F32.mul progress (F32.sub g2 g)
  let bb := F32.mul progress (F32.sub b2 b)
  let _ba := F32.mul progress (F32.sub a2 a)
  let ar := clamp (F32.mul rb (F32.ofInt 255)) (F32.ofInt 0) (F32.ofInt 255)
  let ag := clamp (F32.mul gb (F32.ofInt 255)) (F32.ofInt 0) (F32.ofInt 255)
  let ab := clamp (F32.mul bb (F32.ofInt 255)) (F32.ofInt 0) (F32.ofInt 255)
  let aa := clamp (F32.mul aa0 (F32.ofInt 255)) (F32.ofInt 0) (F32.ofInt 255)
  let ir ← float_to_int ar
  let ig ← float_to_int ag
  let ib ← float_to_int ab
  let ia ← float_to_int aa
  pure ⟨toUint8 ir, toUint8 ig, toUint8 ib, toUint8 ia⟩

end Utils

/-! ## `struct mesh` -/

/-- A mesh: `struct mesh { vec3f *vertexBuffer; int size; ... }`.  The buffer
pointed to by `vertexBuffer` is the list of its elements; `size` is the
separate element count the loops run to. -/
structure mesh where
  vertexBuffer : List vec3f
  size : Int
  deriving DecidableEq, Repr

namespace mesh

/-- One iteration of the loop of `mesh::translate`: the three updates
`v[i].x += translator.x; v[i].y += translator.y; v[i].z += translator.z`.
An index outside the buffer is an invalid access (`none`). -/
def translateStep (translator : vec3f) (v : List vec3f) (i : Nat) : Option (List vec3f) :=
  match v[i]? with
  | some p =>
    some (v.set i ⟨F32.add p.x translator.x, F32.add p.y translator.y, F32.add p.z translator.z⟩)
  | none => none

/-- The body of `mesh::translate(vec3f translator)`: the loop
`for (int i = 0; i < size; i++)` over the vertex buffer. -/
def translate (m : mesh) (translator : vec3f) : Option mesh :=
  match (List.range m.size.toNat).foldlM (translateStep translator) m.vertexBuffer with
  | some v => some { m with vertexBuffer := v }
  | none => none

end mesh

/-- The vertex `p` displaced by the vector `t`, as the specification states the
result of a translation; the sums are float sums. -/
def moved (t p : vec3f) : vec3f := ⟨F32.add p.x t.x, F32.add p.y t.y, F32.add p.z t.z⟩

/-! ## `class Windmill` -/

/-- An event as `Windmill::handle_event` reads it: the field `type` of
`SDL_Event`. -/
structure SDL_Event where
  type : Nat
  deriving DecidableEq, Repr

/-- The event type `SDL_MOUSEMOTION` of SDL2 (`0x400`). -/
def SDL_MOUSEMOTION : Nat := 0x400

/-- The event type `SDL_QUIT` of SDL2 (`0x100`). -/
def SDL_QUIT : Nat := 0x100

/-- The fields of `class Windmill` that `load`, `handle_event` and `update`
read or write: the mesh list, the pending velocity `dx`, `dy`, the camera
position `cx`, `cy` and the rotation `angle`. -/
structure Windmill where
  meshes : List mesh
  dx : Int
  dy : Int
  cx : F32
  cy : F32
  angle : F32
  deriving DecidableEq, Repr

namespace Windmill

/-- A freshly constructed scene: the default member initialisers
`dx = 0, dy = 0`, `cx = 0, cy = 0`, `angle = 0` and an empty `meshes`. -/
def initial : Windmill := ⟨[], 0, 0, .fin 0, .fin 0, .fin 0⟩

/-- The vertex buffer allocated in each iteration of `load`: the eight corners
of the unit cube, in the order of the source. -/
def cubeVertices : List vec3f :=
  [⟨.fin 0, .fin 0, .fin 0⟩, ⟨.fin 0, .fin 0, .fin 1⟩, ⟨.fin 1, .fin 0, .fin 1⟩,
   ⟨.fin 1, .fin 0, .fin 0⟩, ⟨.fin 0, .fin 1, .fin 1⟩, ⟨.fin 1, .fin 1, .fin 1⟩,
   ⟨.fin 1, .fin 1, .fin 0⟩, ⟨.fin 0, .fin 1, .fin 0⟩]

/-- The loop `for (int i = 0; i < 200; i++)` of `load`, with `n` iterations
left to run.  `rand k` is the value of the `k`-th call of `rand()` after
`srand(98)` and `calls` is the number of calls made so far. -/
def loadLoop (rand : Nat → Int) : Nat → Nat → List mesh → Option (List mesh)
  | 0, _, meshes => some meshes
  | n + 1, calls, meshes =>
    let modelCube : mesh := { vertexBuffer := cubeVertices, size := 8 }
    let x : F32 := F32.ofInt (Int.tmod (rand calls) 10)
    let y : F32 := F32.ofInt (Int.tmod (rand (calls + 1)) 30)
    let z : F32 := F32.ofInt (Int.tmod (rand (calls + 2)) 5)
    match modelCube.translate ⟨x, y, z⟩ with
    | some translated => loadLoop rand n (calls + 3) (meshes ++ [translated])
    | none => none

/-- The body of `Windmill::load()`. -/
def load (w : Windmill) (rand : Nat → Int) : Option Windmill :=
  match loadLoop rand 200 0 w.meshes with
  | some meshes => some { w with meshes := meshes }
  | none => none

/-- The body of `Windmill::handle_event(SDL_Event ev)`; `cursorX`, `cursorY`
are the values `SDL_GetMouseState` stores. -/
def handle_event (w : Windmill) (ev : SDL_Event) (cursorX cursorY : Int) : Windmill :=
  if ev.type = SDL_MOUSEMOTION then
    { w with
      dx := if cursorX > Int.tdiv SCREEN_WIDTH 2 then 5 * 400 else -5 * 400,
      dy := if cursorY > Int.tdiv SCREEN_HEIGHT 2 then 5 * 400 else -5 * 400 }
  else w

/-- The state change of `Windmill::update(float timeTook)`: lines 144 to 150
of the source.  The drawing code that follows reads the scene and writes only
local variables and the renderer. -/
def update (w : Windmill) (p : Projection) (timeTook : F32) : Windmill × Projection :=
  let cx := F32.add w.cx (F32.mul (F32.ofInt w.dx) timeTook)
  let cy := F32.add w.cy (F32.mul (F32.ofInt w.dy) timeTook)
  let angle := F32.add w.angle (F32.mul (F32.ofInt 5) timeTook)
  let angle := if F32.ge angle (F32.ofInt 360) then F32.ofInt 0 else angle
  ({ w with cx := cx, cy := cy, angle := angle, dx := 0, dy := 0 },
   p.adjust_camera cx cy)

end Windmill

/-! ## Runs of the frame loop -/

/-- What the frame loop of `main` does to the scene: it hands an event to
`handle_event` or calls `update` with the frame time. -/
inductive Step where
  | event (ev : SDL_Event) (cursorX cursorY : Int)
  | update (timeTook : F32)
  deriving DecidableEq, Repr

/-- One step of the frame loop on the scene and the projection globals. -/
def Step.apply (s : Windmill × Projection) : Step → Windmill × Projection
  | .event ev cursorX cursorY => (s.1.handle_event ev cursorX cursorY, s.2)
  | .update timeTook => s.1.update s.2 timeTook

/-- A finite run of the frame loop. -/
def run (s : Windmill × Projection) (steps : List Step) : Windmill × Projection :=
  steps.foldl Step.apply s

/-- The time passed to `update` by a step, if it is one. -/
def Step.timeTook? : Step → Option F32
  | .event _ _ _ => none
  | .update timeTook => some timeTook

/-- Whether a step hands a pointer-motion event to the scene. -/
def Step.isMotion : Step → Bool
  | .event ev _ _ => ev.type == SDL_MOUSEMOTION
  | .update _ => false

/-! ## Rounding to binary32 -/

theorem roundHalfEven_intCast (n : Int) : roundHalfEven (n : ℚ) = n := by
  simp [roundHalfEven]

theorem roundHalfEven_floor (x : ℚ) :
    ⌊x⌋ ≤ roundHalfEven x ∧ roundHalfEven x ≤ ⌊x⌋ + 1 := by
  unfold roundHalfEven
  split_ifs <;> omega

theorem roundHalfEven_near (x : ℚ) :
    x - 1 / 2 ≤ (roundHalfEven x : ℚ) ∧ (roundHalfEven x : ℚ) ≤ x + 1 / 2 := by
  have h1 := Int.floor_le x
  have h2 := Int.lt_floor_add_one x
  unfold roundHalfEven
  split_ifs with a b c
  · constructor <;> linarith
  · push_cast; constructor <;> linarith
  · have : x - ⌊x⌋ = 1 / 2 := le_antisymm (not_lt.mp b) (not_lt.mp a)
    constructor <;> linarith
  · have : x - ⌊x⌋ = 1 / 2 := le_antisymm (not_lt.mp b) (not_lt.mp a)
    push_cast; constructor <;> linarith

theorem roundHalfEven_eq_of_near {x : ℚ} {m : Int} (h1 : (m : ℚ) - 1 / 2 < x)
    (h2 : x < (m : ℚ) + 1 / 2) : roundHalfEven x = m := by
  obtain ⟨a, b⟩ := roundHalfEven_near x
  have h3 : ((roundHalfEven x : Int) : ℚ) < ((m + 1 : Int) : ℚ) := by push_cast; linarith
  have h4 : ((m - 1 : Int) : ℚ) < ((roundHalfEven x : Int) : ℚ) := by push_cast; linarith
  have h5 := Int.cast_lt.mp h3
  have h6 := Int.cast_lt.mp h4
  omega

theorem roundHalfEven_mono {x y : ℚ} (h : x ≤ y) : roundHalfEven x ≤ roundHalfEven y := by
  have hf : ⌊x⌋ ≤ ⌊y⌋ := Int.floor_mono h
  rcases lt_or_eq_of_le hf with hlt | heq
  · have := (roundHalfEven_floor x).2
    have := (roundHalfEven_floor y).1
    omega
  · unfold roundHalfEven
    rw [heq]
    have hxy : x - ⌊y⌋ ≤ y - ⌊y⌋ := by linarith
    split_ifs <;> first | omega | (exfalso; linarith)

theorem roundHalfEven_le_int {x : ℚ} {n : Int} (h : x ≤ n) : roundHalfEven x ≤ n := by
  have := roundHalfEven_mono h
  rwa [roundHalfEven_intCast] at this

theorem int_le_roundHalfEven {x : ℚ} {n : Int} (h : (n : ℚ) ≤ x) : n ≤ roundHalfEven x := by
  have := roundHalfEven_mono h
  rwa [roundHalfEven_intCast] at this

theorem two_zpow_pos (k : Int) : (0 : ℚ) < 2 ^ k := zpow_pos (by norm_num) k

theorem two_zpow_split (e : Int) :
    (2 : ℚ) ^ e = 2 ^ (e - 23) * 8388608 ∧ (2 : ℚ) ^ (e + 1) = 2 ^ (e - 23) * 16777216 := by
  constructor
  · have : e = (e - 23) + 23 := by ring
    conv_lhs => rw [this, zpow_add₀ (by norm_num : (2 : ℚ) ≠ 0)]
    norm_num
  · have : e + 1 = (e - 23) + 24 := by ring
    conv_lhs => rw [this, zpow_add₀ (by norm_num : (2 : ℚ) ≠ 0)]
    norm_num

theorem binade_ge (a : ℚ) : -126 ≤ binade a := le_max_right _ _

theorem lt_zpow_binade {a : ℚ} : a < 2 ^ (binade a + 1) := by
  have h1 : a < ((2 : ℕ) : ℚ) ^ (Int.log 2 a + 1) := Int.lt_zpow_succ_log_self (by norm_num) a
  have h2 : ((2 : ℕ) : ℚ) ^ (Int.log 2 a + 1) ≤ ((2 : ℕ) : ℚ) ^ (binade a + 1) :=
    zpow_le_zpow_right₀ (by norm_num) (by unfold binade; have := le_max_left (Int.log 2 a) (-126); omega)
  exact_mod_cast lt_of_lt_of_le h1 h2

theorem zpow_binade_le {a : ℚ} (ha : 0 < a) (h : -126 < binade a) : 2 ^ binade a ≤ a := by
  have hb : binade a = Int.log 2 a := by
    unfold binade at h ⊢
    rcases max_cases (Int.log 2 a) (-126) with ⟨h1, _⟩ | ⟨h1, _⟩
    · exact h1
    · rw [h1] at h; omega
  rw [hb]
  exact_mod_cast Int.zpow_log_le_self (b := 2) (by norm_num) ha

theorem binade_eq {a : ℚ} {e : Int} (he : -126 ≤ e) (h1 : 2 ^ e ≤ a) (h2 : a < 2 ^ (e + 1)) :
    binade a = e := by
  have ha : 0 < a := lt_of_lt_of_le (two_zpow_pos e) h1
  have hl : Int.log 2 a = e := by
    apply le_antisymm
    · have : Int.log 2 a < e + 1 :=
        (Int.lt_zpow_iff_log_lt (b := 2) (by norm_num) ha).mp (by exact_mod_cast h2)
      omega
    · exact (Int.zpow_le_iff_le_log (b := 2) (by norm_num) ha).mp (by exact_mod_cast h1)
  unfold binade
  rw [hl]
  exact max_eq_left he

theorem binade_eq_min {a : ℚ} (ha : 0 < a) (h2 : a < 2 ^ (-126 : Int)) : binade a = -126 := by
  have : Int.log 2 a < -126 :=
    (Int.lt_zpow_iff_log_lt (b := 2) (by norm_num) ha).mp (by exact_mod_cast h2)
  unfold binade
  exact max_eq_right (by omega)

theorem binade_mono {a b : ℚ} (ha : 0 < a) (h : a ≤ b) : binade a ≤ binade b := by
  unfold binade
  exact max_le_max (Int.log_mono_right ha h) (le_refl _)

theorem rndMag_zero : rndMag 0 = 0 := by
  simp [rndMag, roundHalfEven]

theorem rndMag_nonneg {a : ℚ} (ha : 0 ≤ a) : 0 ≤ rndMag a := by
  unfold rndMag
  have hu := two_zpow_pos (ulpExp a)
  have : (0 : Int) ≤ roundHalfEven (a / 2 ^ ulpExp a) :=
    int_le_roundHalfEven (by simpa using div_nonneg ha hu.le)
  exact mul_nonneg (by exact_mod_cast this) hu.le

theorem rndMag_le_top {a : ℚ} : rndMag a ≤ 2 ^ (binade a + 1) := by
  unfold rndMag ulpExp
  have hu := two_zpow_pos (binade a - 23)
  rw [(two_zpow_split (binade a)).2]
  have h : a / 2 ^ (binade a - 23) ≤ ((16777216 : Int) : ℚ) := by
    rw [div_le_iff₀ hu]
    have := lt_zpow_binade (a := a)
    rw [(two_zpow_split (binade a)).2] at this
    push_cast
    linarith
  have := roundHalfEven_le_int h
  have hc : ((roundHalfEven (a / 2 ^ (binade a - 23)) : Int) : ℚ) ≤ 16777216 := by
    exact_mod_cast this
  nlinarith

theorem rndMag_ge_bot {a : ℚ} (h : 2 ^ binade a ≤ a) : 2 ^ binade a ≤ rndMag a := by
  unfold rndMag ulpExp
  have hu := two_zpow_pos (binade a - 23)
  have hs := (two_zpow_split (binade a)).1
  have h1 : ((8388608 : Int) : ℚ) ≤ a / 2 ^ (binade a - 23) := by
    rw [le_div_iff₀ hu]
    push_cast
    linarith
  have := int_le_roundHalfEven h1
  have hc : (8388608 : ℚ) ≤ ((roundHalfEven (a / 2 ^ (binade a - 23)) : Int) : ℚ) := by
    exact_mod_cast this
  rw [hs]
  nlinarith

theorem rndMag_mono {a b : ℚ} (ha : 0 ≤ a) (h : a ≤ b) : rndMag a ≤ rndMag b := by
  rcases eq_or_lt_of_le ha with h0 | hpos
  · rw [← h0, rndMag_zero]
    exact rndMag_nonneg (le_trans ha h)
  · rcases eq_or_lt_of_le (binade_mono hpos h) with he | hlt
    · unfold rndMag ulpExp
      rw [he]
      have hu := two_zpow_pos (binade b - 23)
      have := roundHalfEven_mono (div_le_div_of_nonneg_right h hu.le)
      have hc : ((roundHalfEven (a / 2 ^ (binade b - 23)) : Int) : ℚ)
          ≤ ((roundHalfEven (b / 2 ^ (binade b - 23)) : Int) : ℚ) := by exact_mod_cast this
      exact mul_le_mul_of_nonneg_right hc hu.le
    · have h1 := rndMag_le_top (a := a)
      have hb : -126 < binade b := lt_of_le_of_lt (binade_ge a) hlt
      have h2 := rndMag_ge_bot (zpow_binade_le (lt_of_lt_of_le hpos h) hb)
      have h3 : (2 : ℚ) ^ (binade a + 1) ≤ 2 ^ binade b :=
        zpow_le_zpow_right₀ (by norm_num) (by omega)
      linarith

theorem rndMag_eval {a : ℚ} {e m : Int} (he : binade a = e)
    (h1 : (m : ℚ) - 1 / 2 < a / 2 ^ (e - 23)) (h2 : a / 2 ^ (e - 23) < (m : ℚ) + 1 / 2) :
    rndMag a = (m : ℚ) * 2 ^ (e - 23) := by
  unfold rndMag ulpExp
  rw [he, roundHalfEven_eq_of_near h1 h2]

theorem rndMag_exact (m : ℕ) (k : Int) (hm : m < 16777216) (hk : -149 ≤ k) :
    rndMag ((m : ℚ) * 2 ^ k) = (m : ℚ) * 2 ^ k := by
  rcases Nat.eq_zero_or_pos m with h0 | hpos
  · subst h0; simp [rndMag_zero]
  · have hk2 := two_zpow_pos k
    have hmq : (0 : ℚ) < m := by exact_mod_cast hpos
    have ha : (0 : ℚ) < (m : ℚ) * 2 ^ k := mul_pos hmq hk2
    have hle : binade ((m : ℚ) * 2 ^ k) - 23 ≤ k := by
      by_contra hcon
      have hgt : k + 24 ≤ binade ((m : ℚ) * 2 ^ k) := by omega
      have h1 := zpow_binade_le ha (by omega)
      have h2 : (2 : ℚ) ^ (k + 24) ≤ 2 ^ binade ((m : ℚ) * 2 ^ k) :=
        zpow_le_zpow_right₀ (by norm_num) hgt
      have h3 : (2 : ℚ) ^ (k + 24) = 2 ^ k * 16777216 := by
        rw [zpow_add₀ (by norm_num : (2 : ℚ) ≠ 0)]; norm_num
      have h4 : (m : ℚ) < 16777216 := by exact_mod_cast hm
      nlinarith
    obtain ⟨d, hd⟩ := Int.eq_ofNat_of_zero_le (sub_nonneg.mpr hle)
    have hsplit : (2 : ℚ) ^ k = 2 ^ (binade ((m : ℚ) * 2 ^ k) - 23) * 2 ^ d := by
      have : k = (binade ((m : ℚ) * 2 ^ k) - 23) + (d : Int) := by omega
      conv_lhs => rw [this, zpow_add₀ (by norm_num : (2 : ℚ) ≠ 0), zpow_natCast]
    have hu := two_zpow_pos (binade ((m : ℚ) * 2 ^ k) - 23)
    have hq : (m : ℚ) * 2 ^ k / 2 ^ (binade ((m : ℚ) * 2 ^ k) - 23)
        = (((m * 2 ^ d : ℕ) : Int) : ℚ) := by
      rw [div_eq_iff hu.ne.symm]
      conv_lhs => rw [hsplit]
      push_cast
      ring
    unfold rndMag ulpExp
    rw [hq, roundHalfEven_intCast, ← hq, div_mul_cancel₀ _ hu.ne.symm]

theorem rndMag_idem {a : ℚ} (ha : 0 ≤ a) : rndMag (rndMag a) = rndMag a := by
  have hu := two_zpow_pos (binade a - 23)
  have hM0 : (0 : Int) ≤ roundHalfEven (a / 2 ^ (binade a - 23)) :=
    int_le_roundHalfEven (by simpa using div_nonneg ha hu.le)
  have hM1 : roundHalfEven (a / 2 ^ (binade a - 23)) ≤ 16777216 := by
    apply roundHalfEven_le_int
    rw [div_le_iff₀ hu]
    have := lt_zpow_binade (a := a)
    rw [(two_zpow_split (binade a)).2] at this
    push_cast
    linarith
  have hk : -149 ≤ binade a - 23 := by have := binade_ge a; omega
  obtain ⟨M, hM⟩ := Int.eq_ofNat_of_zero_le hM0
  have hr : rndMag a = (M : ℚ) * 2 ^ (binade a - 23) := by
    unfold rndMag ulpExp
    rw [hM]
    push_cast
    rfl
  rcases lt_or_eq_of_le hM1 with hlt | heq
  · rw [hr]
    exact rndMag_exact M _ (by omega) hk
  · have hM2 : M = 16777216 := by omega
    have hr2 : rndMag a = ((8388608 : ℕ) : ℚ) * 2 ^ (binade a - 23 + 1) := by
      rw [hr, hM2, zpow_add₀ (by norm_num : (2 : ℚ) ≠ 0)]
      push_cast
      ring
    rw [hr2]
    exact rndMag_exact 8388608 _ (by norm_num) (by omega)

theorem overflowThreshold_pos : 0 < overflowThreshold := by
  unfold overflowThreshold; norm_num

theorem rndMag_le_max {a : ℚ} (ha : 0 ≤ a) (h : a < FLT_MAX + 2 ^ 103) :
    rndMag a ≤ FLT_MAX := by
  unfold FLT_MAX at h ⊢
  rcases le_or_lt a (2 ^ 127) with hle | hgt
  · have h1 := rndMag_mono ha hle
    have h2 : rndMag (2 ^ 127 : ℚ) = 2 ^ 127 := by
      have := rndMag_exact 8388608 104 (by norm_num) (by norm_num)
      have e : ((8388608 : ℕ) : ℚ) * 2 ^ (104 : Int) = 2 ^ 127 := by norm_num
      rwa [e] at this
    rw [h2] at h1
    have : (2 : ℚ) ^ 127 ≤ 2 ^ 128 - 2 ^ 104 := by norm_num
    linarith
  · have he : binade a = 127 := binade_eq (by norm_num) (by norm_num; linarith)
      (by norm_num; norm_num at h; linarith)
    unfold rndMag ulpExp
    rw [he]
    have hu : (2 : ℚ) ^ ((127 : Int) - 23) = 2 ^ 104 := by norm_num
    rw [hu]
    have hn := (roundHalfEven_near (a / 2 ^ 104)).2
    have hlt : ((roundHalfEven (a / 2 ^ 104) : Int) : ℚ) < ((16777216 : Int) : ℚ) := by
      have : a / 2 ^ 104 < 16777216 - 1 / 2 := by
        rw [div_lt_iff₀ (by norm_num)]
        norm_num at h ⊢
        linarith
      push_cast
      linarith
    have hi : roundHalfEven (a / 2 ^ 104) ≤ 16777215 := by
      have := Int.cast_lt.mp hlt
      omega
    have hc : ((roundHalfEven (a / 2 ^ 104) : Int) : ℚ) ≤ 16777215 := by exact_mod_cast hi
    have : (2 : ℚ) ^ 128 - 2 ^ 104 = 16777215 * 2 ^ 104 := by norm_num
    rw [this]
    exact mul_le_mul_of_nonneg_right hc (by norm_num)

theorem FLT_MAX_lt_overflow : FLT_MAX < overflowThreshold := by
  unfold FLT_MAX overflowThreshold; norm_num

theorem rnd_of_nonneg {q : ℚ} (h : 0 ≤ q) :
    rnd q = if rndMag q < overflowThreshold then .fin (rndMag q) else .pinf := by
  unfold rnd; rw [if_pos h]

theorem rnd_of_neg {q : ℚ} (h : q < 0) :
    rnd q = if rndMag (-q) < overflowThreshold then .fin (-rndMag (-q)) else .ninf := by
  unfold rnd; rw [if_neg (not_le.mpr h)]

theorem rnd_zero : rnd 0 = .fin 0 := by
  rw [rnd_of_nonneg (le_refl _), rndMag_zero, if_pos overflowThreshold_pos]

/-- Every result of rounding is `fin r` with `r` of the sign of the argument, or
the infinity of that sign. -/
theorem rnd_cases (q : ℚ) :
    (0 ≤ q ∧ (rnd q = .pinf ∨ ∃ r, rnd q = .fin r ∧ 0 ≤ r ∧ r = rndMag q ∧ r < overflowThreshold)) ∨
    (q < 0 ∧ (rnd q = .ninf ∨
      ∃ r, rnd q = .fin r ∧ r ≤ 0 ∧ r = -rndMag (-q) ∧ rndMag (-q) < overflowThreshold)) := by
  rcases le_or_lt 0 q with h | h
  · left
    refine ⟨h, ?_⟩
    rw [rnd_of_nonneg h]
    split_ifs with hlt
    · exact Or.inr ⟨_, rfl, rndMag_nonneg h, rfl, hlt⟩
    · exact Or.inl rfl
  · right
    refine ⟨h, ?_⟩
    rw [rnd_of_neg h]
    have hn : 0 ≤ rndMag (-q) := rndMag_nonneg (by linarith)
    split_ifs with hlt
    · exact Or.inr ⟨_, rfl, by linarith, rfl, hlt⟩
    · exact Or.inl rfl

theorem rnd_ne_nan (q : ℚ) : rnd q ≠ .nan := by
  unfold rnd
  split_ifs <;> simp

theorem rnd_idem {q r : ℚ} (h : rnd q = .fin r) : rnd r = .fin r := by
  rcases rnd_cases q with ⟨hq, h1 | ⟨r1, h1, h2, h3, h4⟩⟩ | ⟨hq, h1 | ⟨r1, h1, h2, h3, h4⟩⟩
  · rw [h1] at h; cases h
  · rw [h1] at h; cases h
    rw [rnd_of_nonneg h2, h3, rndMag_idem hq, if_pos (by rw [← h3]; exact h4)]
  · rw [h1] at h; cases h
  · rw [h1] at h; cases h
    have hn : 0 ≤ rndMag (-q) := rndMag_nonneg (by linarith)
    rcases eq_or_lt_of_le hn with h0 | hpos
    · have : r = 0 := by rw [h3, ← h0]; simp
      rw [this, rnd_zero]
    · have hr : r < 0 := by rw [h3]; linarith
      rw [rnd_of_neg hr, h3, neg_neg, rndMag_idem (by linarith), if_pos h4]

/-- A dyadic value `m * 2^k` with `|m| < 2^24` and `-149 ≤ k`, of magnitude
below `2^128`, is a binary32 value: rounding leaves it unchanged. -/
theorem rnd_dyadic (m k : Int) (hm : |m| < 16777216) (hk : -149 ≤ k)
    (hlt : |(m : ℚ) * 2 ^ k| < overflowThreshold) : rnd ((m : ℚ) * 2 ^ k) = .fin ((m : ℚ) * 2 ^ k) := by
  have hk2 := two_zpow_pos k
  have hm2 := abs_lt.mp hm
  rcases le_or_lt 0 m with h | h
  · obtain ⟨n, hn⟩ := Int.eq_ofNat_of_zero_le h
    have hq : 0 ≤ (m : ℚ) * 2 ^ k := mul_nonneg (by exact_mod_cast h) hk2.le
    have hex : rndMag ((m : ℚ) * 2 ^ k) = (m : ℚ) * 2 ^ k := by
      rw [hn]
      have := rndMag_exact n k (by omega) hk
      exact_mod_cast this
    have hlt2 : rndMag ((m : ℚ) * 2 ^ k) < overflowThreshold :=
      lt_of_eq_of_lt hex (lt_of_le_of_lt (le_abs_self _) hlt)
    rw [rnd_of_nonneg hq, if_pos hlt2, hex]
  · obtain ⟨n, hn⟩ := Int.eq_ofNat_of_zero_le (show 0 ≤ -m by omega)
    have hq : (m : ℚ) * 2 ^ k < 0 := mul_neg_of_neg_of_pos (by exact_mod_cast h) hk2
    have hneg : -((m : ℚ) * 2 ^ k) = ((n : ℕ) : ℚ) * 2 ^ k := by
      have : ((n : ℕ) : ℚ) = -(m : ℚ) := by
        have : ((n : Int) : ℚ) = ((-m : Int) : ℚ) := by rw [hn]
        push_cast at this
        exact this
      rw [this]; ring
    have hex : rndMag (-((m : ℚ) * 2 ^ k)) = -((m : ℚ) * 2 ^ k) := by
      rw [hneg]
      exact rndMag_exact n k (by omega) hk
    have hlt2 : rndMag (-((m : ℚ) * 2 ^ k)) < overflowThreshold :=
      lt_of_eq_of_lt hex (lt_of_le_of_lt (neg_le_abs _) hlt)
    rw [rnd_of_neg hq, if_pos hlt2, hex, neg_neg]

theorem rnd_intCast (n : Int) (h : |n| < 16777216) : rnd (n : ℚ) = .fin (n : ℚ) := by
  have := rnd_dyadic n 0 h (by norm_num) (by
    rw [zpow_zero, mul_one]
    have : |(n : ℚ)| < 16777216 := by exact_mod_cast h
    have h2 : (16777216 : ℚ) < overflowThreshold := by unfold overflowThreshold; norm_num
    linarith)
  simpa using this

/-! ## The order of binary32 values -/

theorem rnd_abs_le {q B : ℚ} (hB : rndMag B = B) (hB2 : B < overflowThreshold)
    (h : |q| ≤ B) : ∃ r, rnd q = .fin r ∧ |r| ≤ B := by
  have hq := abs_le.mp h
  rcases le_or_lt 0 q with h1 | h1
  · have hm := rndMag_mono h1 hq.2
    rw [hB] at hm
    refine ⟨rndMag q, ?_, ?_⟩
    · rw [rnd_of_nonneg h1, if_pos (lt_of_le_of_lt hm hB2)]
    · rwa [abs_of_nonneg (rndMag_nonneg h1)]
  · have hm := rndMag_mono (a := -q) (b := B) (by linarith) (by linarith)
    rw [hB] at hm
    refine ⟨-rndMag (-q), ?_, ?_⟩
    · rw [rnd_of_neg h1, if_pos (lt_of_le_of_lt hm hB2)]
    · rwa [abs_neg, abs_of_nonneg (rndMag_nonneg (by linarith))]

theorem rnd_finite {q : ℚ} (h : |q| < FLT_MAX + 2 ^ 103) :
    ∃ r, rnd q = .fin r ∧ |r| ≤ FLT_MAX := by
  rcases le_or_lt 0 q with h1 | h1
  · rw [abs_of_nonneg h1] at h
    have hm := rndMag_le_max h1 h
    refine ⟨rndMag q, ?_, ?_⟩
    · rw [rnd_of_nonneg h1, if_pos (lt_of_le_of_lt hm FLT_MAX_lt_overflow)]
    · rwa [abs_of_nonneg (rndMag_nonneg h1)]
  · rw [abs_of_neg h1] at h
    have hm := rndMag_le_max (a := -q) (by linarith) h
    refine ⟨-rndMag (-q), ?_, ?_⟩
    · rw [rnd_of_neg h1, if_pos (lt_of_le_of_lt hm FLT_MAX_lt_overflow)]
    · rwa [abs_neg, abs_of_nonneg (rndMag_nonneg (by linarith))]

theorem rndMag_one : rndMag 1 = 1 := by
  have := rndMag_exact 1 0 (by norm_num) (by norm_num)
  simpa using this

theorem rnd_ge_one {q : ℚ} (h1 : 1 ≤ q) (h2 : q < FLT_MAX + 2 ^ 103) :
    ∃ e, rnd q = .fin e ∧ 1 ≤ e := by
  have h0 : 0 ≤ q := by linarith
  have hm := rndMag_le_max h0 h2
  refine ⟨rndMag q, ?_, ?_⟩
  · rw [rnd_of_nonneg h0, if_pos (lt_of_le_of_lt hm FLT_MAX_lt_overflow)]
  · have := rndMag_mono (a := 1) (b := q) (by norm_num) h1
    rwa [rndMag_one] at this

/-! ## Evaluating the rounding at given values -/

theorem rnd_exact_of {q : ℚ} (m k : Int) (hq : q = (m : ℚ) * 2 ^ k) (hm : |m| < 16777216)
    (hk : -149 ≤ k) (hlt : |q| < overflowThreshold) : rnd q = .fin q := by
  subst hq
  exact rnd_dyadic m k hm hk hlt

theorem rnd_eval_pos {a : ℚ} (e m : Int) (ha : 0 ≤ a) (he : binade a = e)
    (h1 : (m : ℚ) - 1 / 2 < a / 2 ^ (e - 23)) (h2 : a / 2 ^ (e - 23) < (m : ℚ) + 1 / 2) :
    rnd a = if (m : ℚ) * 2 ^ (e - 23) < overflowThreshold then .fin ((m : ℚ) * 2 ^ (e - 23))
      else .pinf := by
  rw [rnd_of_nonneg ha, rndMag_eval he h1 h2]

theorem ofInt_small (n : Int) (h : |n| < 16777216) : F32.ofInt n = .fin (n : ℚ) :=
  rnd_intCast n h

theorem ofInt_zero : F32.ofInt 0 = .fin 0 := by
  have := ofInt_small 0 (by norm_num)
  simpa using this

theorem ofInt_one : F32.ofInt 1 = .fin 1 := by
  have := ofInt_small 1 (by norm_num)
  simpa using this

theorem ofInt_five : F32.ofInt 5 = .fin 5 := by
  have := ofInt_small 5 (by norm_num)
  simpa using this

theorem ofInt_255 : F32.ofInt 255 = .fin 255 := by
  have := ofInt_small 255 (by norm_num)
  simpa using this

theorem ofInt_320 : F32.ofInt 320 = .fin 320 := by
  have := ofInt_small 320 (by norm_num)
  simpa using this

theorem ofInt_360 : F32.ofInt 360 = .fin 360 := by
  have := ofInt_small 360 (by norm_num)
  simpa using this

/-! ## Conversions between float and int -/

theorem truncate_eq_specTrunc (v : ℚ) : truncate v = specTrunc v := by
  unfold truncate specTrunc
  have hden : (0 : Int) < (v.den : Int) := by exact_mod_cast v.den_pos
  by_cases hv : 0 ≤ v
  · have hnum : 0 ≤ v.num := Rat.num_nonneg.mpr hv
    rw [if_pos hv, Rat.floor_def, Int.tdiv_eq_ediv hnum hden.le]
  · have hnum : v.num < 0 := by
      have := Rat.num_neg.mpr (lt_of_not_ge hv)
      exact this
    rw [if_neg hv]
    have h1 : ⌈v⌉ = -⌊-v⌋ := by rw [Int.floor_neg, neg_neg]
    rw [h1, Rat.floor_def, Rat.neg_num, Rat.neg_den]
    have h2 : 0 ≤ -v.num := by omega
    rw [← Int.tdiv_eq_ediv h2 hden.le, Int.neg_tdiv, neg_neg]

theorem float_to_int_of_range {v : ℚ} (hlo : INT_MIN ≤ specTrunc v) (hhi : specTrunc v ≤ INT_MAX) :
    float_to_int (.fin v) = some (specTrunc v) := by
  simp only [float_to_int]
  rw [truncate_eq_specTrunc, if_pos ⟨hlo, hhi⟩]

theorem float_to_int_of_gt {v : ℚ} (h : INT_MAX < specTrunc v) : float_to_int (.fin v) = none := by
  simp only [float_to_int]
  rw [truncate_eq_specTrunc, if_neg (by omega)]

theorem specTrunc_of_unit_range {v : ℚ} (h0 : 0 ≤ v) (h1 : v ≤ 255) :
    0 ≤ specTrunc v ∧ specTrunc v ≤ 255 := by
  unfold specTrunc
  rw [if_pos h0]
  refine ⟨Int.floor_nonneg.mpr h0, ?_⟩
  have h2 : ((⌊v⌋ : Int) : ℚ) ≤ ((255 : Int) : ℚ) := le_trans (Int.floor_le v) (by simpa using h1)
  exact_mod_cast h2

theorem toUint8_of_range {i : Int} (h0 : 0 ≤ i) (h1 : i ≤ 255) : toUint8 i = i := by
  unfold toUint8
  omega

theorem specTrunc_intCast (n : Int) : specTrunc (n : ℚ) = n := by
  unfold specTrunc
  split_ifs <;> simp

theorem specTrunc_zero : specTrunc 0 = 0 := by
  simp [specTrunc]

theorem specTrunc_eq_of_nonneg {v : ℚ} {n : Int} (h0 : 0 ≤ v) (h1 : (n : ℚ) ≤ v)
    (h2 : v < n + 1) : specTrunc v = n := by
  unfold specTrunc
  rw [if_pos h0, Int.floor_eq_iff]
  exact ⟨h1, h2⟩

theorem specTrunc_eq_of_neg {v : ℚ} {n : Int} (h0 : v < 0) (h1 : (n : ℚ) - 1 < v)
    (h2 : v ≤ n) : specTrunc v = n := by
  unfold specTrunc
  rw [if_neg (not_le.mpr h0), Int.ceil_eq_iff]
  exact ⟨h1, h2⟩

theorem half_screen_width : Int.tdiv SCREEN_WIDTH 2 = 320 := by decide

theorem half_screen_height : Int.tdiv SCREEN_HEIGHT 2 = 320 := by decide

/-! ## `Utils::clamp` and the colour channels -/

theorem clamp_bounds (v lo hi : F32) (hv : v ≠ .nan) (h : F32.le lo hi = true) :
    F32.le lo (Utils.clamp v lo hi) = true ∧ F32.le (Utils.clamp v lo hi) hi = true := by
  cases v <;> cases lo <;> cases hi <;> simp [F32.le] at hv h <;>
    simp only [Utils.clamp, F32.lt, F32.gt] <;> (try split_ifs) <;>
    simp_all [F32.le]


theorem clamp_id (v lo hi : F32) (h1 : F32.le lo v = true) (h2 : F32.le v hi = true) :
    Utils.clamp v lo hi = v := by
  cases v <;> cases lo <;> cases hi <;> simp [F32.le] at h1 h2 <;>
    simp only [Utils.clamp, F32.lt, F32.gt] <;> (try split_ifs) <;>
    simp_all [F32.le] <;> linarith

theorem mul_255_ne_nan (x : F32) (hx : x ≠ .nan) : F32.mul x (F32.ofInt 255) ≠ .nan := by
  rw [ofInt_255]
  cases x with
  | fin q => simpa [F32.mul] using rnd_ne_nan (q * 255)
  | pinf => simp [F32.mul]
  | ninf => simp [F32.mul]
  | nan => exact absurd rfl hx

/-- A float that is not NaN, clamped to `[0, 255]`, is a finite value `q` in
that range; its conversion to `int` is defined and is `trunc q`, which the
narrowing to `Uint8` leaves unchanged. -/
theorem channel_pipeline (x : F32) (hx : x ≠ .nan) :
    ∃ q : ℚ, Utils.clamp x (F32.ofInt 0) (F32.ofInt 255) = .fin q ∧ 0 ≤ q ∧ q ≤ 255 ∧
      float_to_int (Utils.clamp x (F32.ofInt 0) (F32.ofInt 255)) = some (specTrunc q) ∧
      toUint8 (specTrunc q) = specTrunc q ∧ 0 ≤ specTrunc q ∧ specTrunc q ≤ 255 := by
  have hb := clamp_bounds x (F32.ofInt 0) (F32.ofInt 255) hx
    (by rw [ofInt_zero, ofInt_255]; simp [F32.le])
  rw [ofInt_zero, ofInt_255] at hb ⊢
  obtain ⟨h0, h1⟩ := hb
  cases hc : Utils.clamp x (.fin 0) (.fin 255) with
  | fin q =>
    rw [hc] at h0 h1
    simp only [F32.le, decide_eq_true_eq] at h0 h1
    obtain ⟨t0, t1⟩ := specTrunc_of_unit_range h0 h1
    refine ⟨q, rfl, h0, h1, float_to_int_of_range ?_ ?_, toUint8_of_range t0 t1, t0, t1⟩
    · unfold INT_MIN; omega
    · unfold INT_MAX; omega
  | pinf => rw [hc] at h1; simp [F32.le] at h1
  | ninf => rw [hc] at h0; simp [F32.le] at h0
  | nan => rw [hc] at h0; simp [F32.le] at h0

theorem clamp_nan (lo hi : F32) : Utils.clamp .nan lo hi = .nan := by
  cases lo <;> cases hi <;> simp [Utils.clamp, F32.lt, F32.gt]


theorem draw_color_blend_eq (r g b a r2 g2 b2 a2 progress aa0 : F32)
    (hr : F32.mul progress (F32.sub r2 r) ≠ .nan) (hg : F32.mul progress (F32.sub g2 g) ≠ .nan)
    (hb : F32.mul progress (F32.sub b2 b) ≠ .nan) (ha : aa0 ≠ .nan) :
    ∃ qr qg qb qa : ℚ,
      Utils.clamp (F32.mul (F32.mul progress (F32.sub r2 r)) (F32.ofInt 255))
        (F32.ofInt 0) (F32.ofInt 255) = .fin qr ∧
      Utils.clamp (F32.mul (F32.mul progress (F32.sub g2 g)) (F32.ofInt 255))
        (F32.ofInt 0) (F32.ofInt 255) = .fin qg ∧
      Utils.clamp (F32.mul (F32.mul progress (F32.sub b2 b)) (F32.ofInt 255))
        (F32.ofInt 0) (F32.ofInt 255) = .fin qb ∧
      Utils.clamp (F32.mul aa0 (F32.ofInt 255)) (F32.ofInt 0) (F32.ofInt 255) = .fin qa ∧
      Utils.draw_color_blend r g b a r2 g2 b2 a2 progress aa0 =
        some ⟨specTrunc qr, specTrunc qg, specTrunc qb, specTrunc qa⟩ ∧
      (0 ≤ specTrunc qr ∧ specTrunc qr ≤ 255) ∧ (0 ≤ specTrunc qg ∧ specTrunc qg ≤ 255) ∧
      (0 ≤ specTrunc qb ∧ specTrunc qb ≤ 255) ∧ (0 ≤ specTrunc qa ∧ specTrunc qa ≤ 255) := by
  obtain ⟨qr, cr, _, _, fr, ur, br⟩ := channel_pipeline _ (mul_255_ne_nan _ hr)
  obtain ⟨qg, cg, _, _, fg, ug, bg⟩ := channel_pipeline _ (mul_255_ne_nan _ hg)
  obtain ⟨qb, cb, _, _, fb, ub, bb⟩ := channel_pipeline _ (mul_255_ne_nan _ hb)
  obtain ⟨qa, ca, _, _, fa, ua, ba⟩ := channel_pipeline _ (mul_255_ne_nan _ ha)
  refine ⟨qr, qg, qb, qa, cr, cg, cb, ca, ?_, br, bg, bb, ba⟩
  simp only [Utils.draw_color_blend, fr, fg, fb, fa, ur, ug, ub, ua, Option.bind_eq_bind,
    Option.some_bind, Option.pure_def]

/-- When the alpha conversion is undefined the whole call is. -/
theorem draw_color_blend_nan_alpha (r g b a r2 g2 b2 a2 progress : F32) :
    Utils.draw_color_blend r g b a r2 g2 b2 a2 progress .nan = none := by
  have h : float_to_int (Utils.clamp (F32.mul .nan (F32.ofInt 255)) (F32.ofInt 0) (F32.ofInt 255))
      = none := by
    have : F32.mul .nan (F32.ofInt 255) = .nan := by simp [F32.mul]
    rw [this, clamp_nan]
    rfl
  simp only [Utils.draw_color_blend, h, Option.bind_eq_bind, Option.bind_none]
  cases float_to_int (Utils.clamp (F32.mul (F32.mul progress (F32.sub r2 r)) (F32.ofInt 255))
      (F32.ofInt 0) (F32.ofInt 255)) <;>
    cases float_to_int (Utils.clamp (F32.mul (F32.mul progress (F32.sub g2 g)) (F32.ofInt 255))
      (F32.ofInt 0) (F32.ofInt 255)) <;>
    cases float_to_int (Utils.clamp (F32.mul (F32.mul progress (F32.sub b2 b)) (F32.ofInt 255))
      (F32.ofInt 0) (F32.ofInt 255)) <;> rfl


theorem sub_self_fin (r : ℚ) : F32.sub (.fin r) (.fin r) = .fin 0 := by
  simp [F32.sub, rnd_zero]

theorem mul_fin_zero (p : ℚ) : F32.mul (.fin p) (.fin 0) = .fin 0 := by
  simp [F32.mul, rnd_zero]

theorem clamp_zero_channel :
    Utils.clamp (F32.mul (.fin 0) (F32.ofInt 255)) (F32.ofInt 0) (F32.ofInt 255) = .fin 0 := by
  rw [ofInt_255, ofInt_zero]
  simp [F32.mul, rnd_zero, Utils.clamp, F32.lt, F32.gt]

theorem self_blend (r g b a p : ℚ) (x : F32) (hx : x ≠ .nan) :
    ∃ qa : ℚ, Utils.clamp (F32.mul x (F32.ofInt 255)) (F32.ofInt 0) (F32.ofInt 255) = .fin qa ∧
      0 ≤ specTrunc qa ∧ specTrunc qa ≤ 255 ∧
      Utils.draw_color_blend (.fin r) (.fin g) (.fin b) (.fin a) (.fin r) (.fin g) (.fin b)
        (.fin a) (.fin p) x = some ⟨0, 0, 0, specTrunc qa⟩ := by
  obtain ⟨qr, qg, qb, qa, cr, cg, cb, ca, hd, _, _, _, ba⟩ :=
    draw_color_blend_eq (.fin r) (.fin g) (.fin b) (.fin a) (.fin r) (.fin g) (.fin b) (.fin a)
      (.fin p) x (by simp [sub_self_fin, mul_fin_zero]) (by simp [sub_self_fin, mul_fin_zero])
      (by simp [sub_self_fin, mul_fin_zero]) hx
  rw [sub_self_fin, mul_fin_zero, clamp_zero_channel] at cr cg cb
  cases cr; cases cg; cases cb
  rw [specTrunc_zero] at hd
  exact ⟨qa, ca, ba.1, ba.2, hd⟩


theorem rndMag_two_pow_31 : rndMag 2147483648 = 2147483648 := by
  have := rndMag_exact 8388608 8 (by norm_num) (by norm_num)
  have e : ((8388608 : ℕ) : ℚ) * 2 ^ (8 : Int) = 2147483648 := by norm_num
  rwa [e] at this

theorem rndMag_FLT_MAX : rndMag FLT_MAX = FLT_MAX := by
  have := rndMag_exact 16777215 104 (by norm_num) (by norm_num)
  have e : ((16777215 : ℕ) : ℚ) * 2 ^ (104 : Int) = FLT_MAX := by
    unfold FLT_MAX; norm_num
  rwa [e] at this

theorem ofInt_of_int32 (x : Int) (h : INT_MIN ≤ x ∧ x ≤ INT_MAX) :
    ∃ r, F32.ofInt x = .fin r ∧ |r| ≤ 2147483648 := by
  unfold INT_MIN INT_MAX at h
  apply rnd_abs_le rndMag_two_pow_31 (by unfold overflowThreshold; norm_num)
  rw [abs_le]
  constructor
  · have : ((-2147483648 : Int) : ℚ) ≤ (x : ℚ) := by exact_mod_cast h.1
    simpa using this
  · have : (x : ℚ) ≤ ((2147483647 : Int) : ℚ) := by exact_mod_cast h.2
    have h2 : ((2147483647 : Int) : ℚ) ≤ 2147483648 := by norm_num
    linarith

theorem depth_plus_one (d : ℚ) (h0 : 0 ≤ d) (h1 : d ≤ FLT_MAX) :
    ∃ e, F32.add (.fin d) (F32.ofInt 1) = .fin e ∧ 1 ≤ e := by
  rw [ofInt_one]
  simp only [F32.add]
  exact rnd_ge_one (by linarith) (by linarith)

theorem abs_div_le_of_one_le {r e : ℚ} (he : 1 ≤ e) : |r / e| ≤ |r| := by
  have hpos : 0 < e := by linarith
  rw [abs_div, abs_of_pos hpos]
  exact div_le_self (abs_nonneg r) he

theorem screen_value_finite (x : Int) (c e : ℚ) (hx : INT_MIN ≤ x ∧ x ≤ INT_MAX)
    (hc : |c| ≤ FLT_MAX) (he : 1 ≤ e) :
    ∃ v, F32.add (F32.sub (F32.div (F32.ofInt x) (.fin e)) (F32.div (.fin c) (.fin e)))
      (F32.ofInt 320) = .fin v ∧ |v| ≤ FLT_MAX := by
  have hne : e ≠ 0 := by linarith
  obtain ⟨r1, h1, b1⟩ := ofInt_of_int32 x hx
  obtain ⟨r2, h2, b2⟩ := rnd_abs_le (q := r1 / e) rndMag_two_pow_31
    (by unfold overflowThreshold; norm_num) (le_trans (abs_div_le_of_one_le he) b1)
  obtain ⟨r3, h3, b3⟩ := rnd_abs_le (q := c / e) rndMag_FLT_MAX FLT_MAX_lt_overflow
    (le_trans (abs_div_le_of_one_le he) hc)
  have hbig : (2147483648 : ℚ) + 320 < 2 ^ 103 := by norm_num
  obtain ⟨r4, h4, b4⟩ := rnd_finite (q := r2 - r3) (by
    have := abs_sub r2 r3
    linarith)
  obtain ⟨r5, h5, b5⟩ := rnd_finite (q := r4 + 320) (by
    have := abs_add r4 320
    have h320 : |(320 : ℚ)| = 320 := abs_of_pos (by norm_num)
    linarith)
  refine ⟨r5, ?_, b5⟩
  rw [h1, ofInt_320]
  simp only [F32.div, if_neg hne, h2, h3, F32.sub, h4, F32.add, h5]


/-- Evaluation of an exact operation: the exact result `q` equals `v`, and `v`
is the dyadic `m * 2^k` with a 24-bit `m`. -/
theorem rnd_val {q v : ℚ} (m k : Int) (hqv : q = v) (hv : v = (m : ℚ) * 2 ^ k)
    (hm : |m| < 16777216) (hk : -149 ≤ k) (hlt : |v| < overflowThreshold) : rnd q = .fin v := by
  subst hqv
  exact rnd_exact_of m k hv hm hk hlt

/-- Evaluation of an inexact operation on a positive result `a` in the binade
`e`: `a` lies within half a unit of `m` units. -/
theorem rnd_val_pos {a v : ℚ} (e m : Int) (he : -126 ≤ e) (h1 : 2 ^ e ≤ a)
    (h2 : a < 2 ^ (e + 1)) (h3 : (m : ℚ) - 1 / 2 < a / 2 ^ (e - 23))
    (h4 : a / 2 ^ (e - 23) < (m : ℚ) + 1 / 2) (hv : (m : ℚ) * 2 ^ (e - 23) = v)
    (hlt : v < overflowThreshold) : rnd a = .fin v := by
  have ha : 0 ≤ a := le_trans (two_zpow_pos e).le h1
  rw [rnd_eval_pos e m ha (binade_eq he h1 h2) h3 h4, hv, if_pos hlt]


theorem roundHalfEven_tie_even {x : ℚ} {m : Int} (h : x = (m : ℚ) + 1 / 2) (hm : m % 2 = 0) :
    roundHalfEven x = m := by
  have hf : ⌊x⌋ = m := by
    rw [Int.floor_eq_iff, h]
    constructor <;> linarith
  unfold roundHalfEven
  rw [hf, h]
  have e : (m : ℚ) + 1 / 2 - (m : ℚ) = 1 / 2 := by ring
  rw [e, if_neg (lt_irrefl _), if_neg (lt_irrefl _), if_pos hm]

/-- Evaluation of an operation whose positive exact result `a` lies halfway
between `m` and `m + 1` units, `m` even: the result is `m` units. -/
theorem rnd_val_tie {a v : ℚ} (e m : Int) (he : -126 ≤ e) (h1 : 2 ^ e ≤ a)
    (h2 : a < 2 ^ (e + 1)) (h3 : a / 2 ^ (e - 23) = (m : ℚ) + 1 / 2) (hm : m % 2 = 0)
    (hv : (m : ℚ) * 2 ^ (e - 23) = v) (hlt : v < overflowThreshold) : rnd a = .fin v := by
  have ha : 0 ≤ a := le_trans (two_zpow_pos e).le h1
  have hb := binade_eq he h1 h2
  have hr : rndMag a = v := by
    unfold rndMag ulpExp
    rw [hb, roundHalfEven_tie_even h3 hm, hv]
  rw [rnd_of_nonneg ha, hr, if_pos hlt]

/-! ## `mesh::translate` and `Windmill::load` -/

theorem translateStep_at (t : vec3f) (pre : List vec3f) (a : vec3f) (v : List vec3f) :
    mesh.translateStep t (pre ++ a :: v) pre.length = some ((pre ++ [moved t a]) ++ v) := by
  unfold mesh.translateStep
  have h : (pre ++ a :: v)[pre.length]? = some a := by
    rw [List.getElem?_append_right (le_refl _)]
    simp
  rw [h]
  simp [moved]

theorem translate_fold (t : vec3f) (v : List vec3f) : ∀ pre : List vec3f,
    (List.range' pre.length v.length).foldlM (mesh.translateStep t) (pre ++ v)
      = some (pre ++ v.map (moved t)) := by
  induction v with
  | nil => intro pre; simp
  | cons a v ih =>
    intro pre
    rw [List.length_cons, List.range'_succ, List.foldlM_cons, translateStep_at]
    have := ih (pre ++ [moved t a])
    simp only [List.length_append, List.length_singleton] at this
    simp only [Option.bind_eq_bind, Option.some_bind, this]
    simp

theorem translate_eq_map (m : mesh) (t : vec3f) (h : m.size = m.vertexBuffer.length) :
    m.translate t = some ⟨m.vertexBuffer.map (moved t), m.size⟩ := by
  have hf := translate_fold t m.vertexBuffer []
  simp only [List.length_nil, List.nil_append] at hf
  unfold mesh.translate
  rw [h, Int.toNat_natCast, List.range_eq_range', hf]

theorem add_small_ints (a k : Int) (h : |a + k| < 16777216) :
    F32.add (.fin (a : ℚ)) (.fin (k : ℚ)) = .fin ((a : ℚ) + (k : ℚ)) := by
  have := rnd_intCast (a + k) h
  simp only [F32.add]
  exact_mod_cast this

theorem add_zero_small (k : Int) (h0 : 0 ≤ k) (h1 : k ≤ 29) :
    F32.add (.fin 0) (.fin (k : ℚ)) = .fin (0 + (k : ℚ)) := by
  have := add_small_ints 0 k (by rw [abs_lt]; omega)
  simpa using this

theorem add_one_small (k : Int) (h0 : 0 ≤ k) (h1 : k ≤ 29) :
    F32.add (.fin 1) (.fin (k : ℚ)) = .fin (1 + (k : ℚ)) := by
  have := add_small_ints 1 k (by rw [abs_lt]; omega)
  simpa using this

theorem loadLoop_spec (rand : Nat → Int) (P : mesh → Prop)
    (hP : ∀ c : Nat, ∃ m,
      (⟨Windmill.cubeVertices, 8⟩ : mesh).translate
        ⟨F32.ofInt (Int.tmod (rand c) 10), F32.ofInt (Int.tmod (rand (c + 1)) 30),
         F32.ofInt (Int.tmod (rand (c + 2)) 5)⟩ = some m ∧ P m) :
    ∀ (n calls : Nat) (meshes : List mesh), ∃ added,
      Windmill.loadLoop rand n calls meshes = some (meshes ++ added) ∧
      added.length = n ∧ ∀ m ∈ added, P m := by
  intro n
  induction n with
  | zero => intro calls meshes; exact ⟨[], by simp [Windmill.loadLoop], rfl, by simp⟩
  | succ n ih =>
    intro calls meshes
    obtain ⟨m, hm, hPm⟩ := hP calls
    obtain ⟨added, hl, hlen, hall⟩ := ih (calls + 3) (meshes ++ [m])
    refine ⟨m :: added, ?_, by simp [hlen], ?_⟩
    · simp only [Windmill.loadLoop, hm, hl]
      simp
    · intro x hx
      rcases List.mem_cons.mp hx with rfl | hx
      · exact hPm
      · exact hall x hx

theorem tmod_range {a b : Int} (ha : 0 ≤ a) (hb : 0 < b) :
    0 ≤ Int.tmod a b ∧ Int.tmod a b ≤ b - 1 := by
  rw [Int.tmod_eq_emod ha hb.le]
  have h1 := Int.emod_nonneg a hb.ne.symm
  have h2 := Int.emod_lt_of_pos a hb
  omega

/-- The cube of `load` translated by a small integer offset: every sum is
exact. -/
theorem translate_cube (ox oy oz : Int) (hx : 0 ≤ ox ∧ ox ≤ 29) (hy : 0 ≤ oy ∧ oy ≤ 29)
    (hz : 0 ≤ oz ∧ oz ≤ 29) :
    (⟨Windmill.cubeVertices, 8⟩ : mesh).translate ⟨F32.ofInt ox, F32.ofInt oy, F32.ofInt oz⟩
      = some ⟨[⟨.fin (0 + (ox : ℚ)), .fin (0 + (oy : ℚ)), .fin (0 + (oz : ℚ))⟩,
               ⟨.fin (0 + (ox : ℚ)), .fin (0 + (oy : ℚ)), .fin (1 + (oz : ℚ))⟩,
               ⟨.fin (1 + (ox : ℚ)), .fin (0 + (oy : ℚ)), .fin (1 + (oz : ℚ))⟩,
               ⟨.fin (1 + (ox : ℚ)), .fin (0 + (oy : ℚ)), .fin (0 + (oz : ℚ))⟩,
               ⟨.fin (0 + (ox : ℚ)), .fin (1 + (oy : ℚ)), .fin (1 + (oz : ℚ))⟩,
               ⟨.fin (1 + (ox : ℚ)), .fin (1 + (oy : ℚ)), .fin (1 + (oz : ℚ))⟩,
               ⟨.fin (1 + (ox : ℚ)), .fin (1 + (oy : ℚ)), .fin (0 + (oz : ℚ))⟩,
               ⟨.fin (0 + (ox : ℚ)), .fin (1 + (oy : ℚ)), .fin (0 + (oz : ℚ))⟩], 8⟩ := by
  rw [translate_eq_map _ _ (by simp [Windmill.cubeVertices])]
  rw [ofInt_small ox (by rw [abs_lt]; omega), ofInt_small oy (by rw [abs_lt]; omega),
    ofInt_small oz (by rw [abs_lt]; omega)]
  simp only [Windmill.cubeVertices, List.map, moved,
    add_zero_small ox hx.1 hx.2, add_one_small ox hx.1 hx.2,
    add_zero_small oy hy.1 hy.2, add_one_small oy hy.1 hy.2,
    add_zero_small oz hz.1 hz.2, add_one_small oz hz.1 hz.2]


/-! ## `Windmill::handle_event` and `Windmill::update` -/

theorem handle_event_angle (w : Windmill) (ev : SDL_Event) (cursorX cursorY : Int) :
    (w.handle_event ev cursorX cursorY).angle = w.angle := by
  unfold Windmill.handle_event
  split_ifs <;> rfl

theorem handle_event_not_motion (w : Windmill) (ev : SDL_Event) (cursorX cursorY : Int)
    (h : ev.type ≠ SDL_MOUSEMOTION) : w.handle_event ev cursorX cursorY = w := by
  unfold Windmill.handle_event
  rw [if_neg h]

/-- The angle test of `update` on a sum that is `+∞` or a non-negative finite
value: the new angle is a finite value in `[0, 360)`. -/
theorem angle_wrap (s : F32) (hs : s = .pinf ∨ ∃ r, s = .fin r ∧ 0 ≤ r) :
    ∃ a, (if F32.ge s (F32.ofInt 360) then F32.ofInt 0 else s) = .fin a ∧ 0 ≤ a ∧ a < 360 := by
  rw [ofInt_360, ofInt_zero]
  rcases hs with rfl | ⟨r, rfl, hr⟩
  · exact ⟨0, by simp [F32.ge, F32.le], le_refl _, by norm_num⟩
  · by_cases h : (360 : ℚ) ≤ r
    · exact ⟨0, by simp [F32.ge, F32.le, h], le_refl _, by norm_num⟩
    · exact ⟨r, by simp [F32.ge, F32.le, h], hr, not_le.mp h⟩

theorem rnd_nonneg_cases {q : ℚ} (h : 0 ≤ q) : rnd q = .pinf ∨ ∃ r, rnd q = .fin r ∧ 0 ≤ r := by
  rcases rnd_cases q with ⟨_, h1 | ⟨r, h1, h2, _⟩⟩ | ⟨hq, _⟩
  · exact Or.inl h1
  · exact Or.inr ⟨r, h1, h2⟩
  · exact absurd h (not_le.mpr hq)

theorem update_angle_range (w : Windmill) (p : Projection) (dt : F32) (a : ℚ)
    (ha : w.angle = .fin a) (h0 : 0 ≤ a) (hdt : F32.le (.fin 0) dt = true) :
    ∃ a1, (w.update p dt).1.angle = .fin a1 ∧ 0 ≤ a1 ∧ a1 < 360 := by
  simp only [Windmill.update, ha]
  apply angle_wrap
  rw [ofInt_five]
  cases dt with
  | fin t =>
    have ht : 0 ≤ t := by simpa [F32.le] using hdt
    rcases rnd_nonneg_cases (q := 5 * t) (by linarith) with h1 | ⟨r, h1, hr⟩
    · left; simp [F32.mul, h1, F32.add]
    · rcases rnd_nonneg_cases (q := a + r) (by linarith) with h2 | ⟨s, h2, hs⟩
      · left; simp [F32.mul, h1, F32.add, h2]
      · right; exact ⟨s, by simp [F32.mul, h1, F32.add, h2], hs⟩
  | pinf => left; simp [F32.mul, F32.add]
  | ninf => simp [F32.le] at hdt
  | nan => simp [F32.le] at hdt

theorem run_angle_range (steps : List Step) :
    ∀ s : Windmill × Projection, (∃ a, s.1.angle = .fin a ∧ 0 ≤ a ∧ a < 360) →
      (∀ st ∈ steps, ∀ dt, st.timeTook? = some dt → F32.le (.fin 0) dt = true) →
      ∃ a, (run s steps).1.angle = .fin a ∧ 0 ≤ a ∧ a < 360 := by
  induction steps with
  | nil => intro s h _; exact h
  | cons st steps ih =>
    intro s h hdt
    have hrest : ∀ st1 ∈ steps, ∀ dt, st1.timeTook? = some dt → F32.le (.fin 0) dt = true :=
      fun st1 hst1 => hdt st1 (List.mem_cons_of_mem _ hst1)
    show ∃ a, (run (Step.apply s st) steps).1.angle = .fin a ∧ 0 ≤ a ∧ a < 360
    cases st with
    | event ev cursorX cursorY =>
      apply ih _ _ hrest
      simpa [Step.apply, handle_event_angle] using h
    | update dt =>
      have hd : F32.le (.fin 0) dt = true := hdt (.update dt) (List.mem_cons_self _ _) dt rfl
      obtain ⟨a, ha, a0, _⟩ := h
      exact ih _ (update_angle_range s.1 s.2 dt a ha a0 hd) hrest

theorem run_of_idle (steps : List Step) :
    ∀ s : Windmill × Projection,
      (∀ st ∈ steps, st.timeTook? = none ∧ st.isMotion = false) → run s steps = s := by
  induction steps with
  | nil => intro s _; rfl
  | cons st steps ih =>
    intro s h
    have hst := h st (List.mem_cons_self _ _)
    show run (Step.apply s st) steps = s
    cases st with
    | event ev cursorX cursorY =>
      have hne : ev.type ≠ SDL_MOUSEMOTION := by
        simpa [Step.isMotion] using hst.2
      rw [show Step.apply s (.event ev cursorX cursorY) = s from by
        simp [Step.apply, handle_event_not_motion _ _ _ _ hne]]
      exact ih s (fun st1 hst1 => h st1 (List.mem_cons_of_mem _ hst1))
    | update dt => simp [Step.timeTook?] at hst

/-- Adding the float zero to the result of a float addition changes nothing:
the result is already a binary32 value. -/
theorem add_add_zero (a b : F32) : F32.add (F32.add a b) (.fin 0) = F32.add a b := by
  have key : ∀ q : ℚ, F32.add (rnd q) (.fin 0) = rnd q := by
    intro q
    cases h : rnd q with
    | fin r =>
      have := rnd_idem h
      simp only [F32.add, add_zero, this]
    | pinf => rfl
    | ninf => rfl
    | nan => rfl
  cases a <;> cases b <;> first | exact key _ | rfl

theorem mul_zero_fin (t : ℚ) : F32.mul (F32.ofInt 0) (.fin t) = .fin 0 := by
  rw [ofInt_zero]
  simp [F32.mul, rnd_zero]

theorem ofInt_2000 : F32.ofInt 2000 = .fin 2000 := by
  have := ofInt_small 2000 (by norm_num)
  simpa using this

theorem ofInt_neg_2000 : F32.ofInt (-2000) = .fin (-2000) := by
  have := ofInt_small (-2000) (by norm_num)
  simpa using this

theorem angle_sum_ne_nan (a dt : ℚ) :
    F32.add (.fin a) (F32.mul (F32.ofInt 5) (.fin dt)) ≠ .nan := by
  rw [ofInt_five]
  simp only [F32.mul]
  cases h : rnd (5 * dt) with
  | fin r => simpa [F32.add] using rnd_ne_nan (a + r)
  | pinf => simp [F32.add]
  | ninf => simp [F32.add]
  | nan => exact absurd h (rnd_ne_nan _)

theorem ge_eq_not_lt (s : F32) (q : ℚ) (hs : s ≠ .nan) :
    F32.ge s (.fin q) = !F32.lt s (.fin q) := by
  cases s with
  | fin r =>
    simp only [F32.ge, F32.le, F32.lt]
    by_cases h : q ≤ r
    · simp [h, not_lt.mpr h]
    · simp [h, not_le.mp h]
  | pinf => rfl
  | ninf => rfl
  | nan => exact absurd rfl hs


/-! ## The claims -/

/-- C2: for a value `v` that is a number and bounds `lo ≤ hi`,
`Utils::clamp(v, lo, hi)` leaves in `v` and returns a value between `lo` and
`hi`, and a value already between the bounds is returned unchanged. -/
theorem C2_clamp_range (v lo hi : F32) (hv : v ≠ .nan) (h : F32.le lo hi = true) :
    F32.le lo (Utils.clamp v lo hi) = true ∧ F32.le (Utils.clamp v lo hi) hi = true ∧
    (F32.le lo v = true → F32.le v hi = true → Utils.clamp v lo hi = v) :=
  ⟨(clamp_bounds v lo hi hv h).1, (clamp_bounds v lo hi hv h).2, clamp_id v lo hi⟩

/-- Witness of C2 at `v = 7/2`, `lo = 1`, `hi = 3`. -/
theorem C2_clamp_range_witness :
    F32.fin (7 / 2) ≠ F32.nan ∧ F32.le (.fin 1) (.fin 3) = true ∧
    (F32.le (.fin 1) (Utils.clamp (.fin (7 / 2)) (.fin 1) (.fin 3)) = true ∧
      F32.le (Utils.clamp (.fin (7 / 2)) (.fin 1) (.fin 3)) (.fin 3) = true ∧
      (F32.le (.fin 1) (.fin (7 / 2)) = true → F32.le (.fin (7 / 2)) (.fin 3) = true →
        Utils.clamp (.fin (7 / 2)) (.fin 1) (.fin 3) = .fin (7 / 2))) :=
  have h1 : F32.fin (7 / 2) ≠ F32.nan := by simp
  have h2 : F32.le (.fin 1) (.fin 3) = true := by simp [F32.le]
  ⟨h1, h2, C2_clamp_range (.fin (7 / 2)) (.fin 1) (.fin 3) h1 h2⟩

/-- C3 (what the code does): blending any colour with itself hands the backend
red, green and blue equal to `0` whatever the colour and the progress, and an
alpha computed from the indeterminate local `aa` alone (the call is undefined
when `aa` holds NaN); for the white colour `(1, 1, 1, 1)` the backend never
receives `(255, 255, 255, 255)`. -/
theorem C3_self_blend_is_black (r g b a progress aa0 : ℚ) (x : F32) :
    (∃ qa : ℚ,
      Utils.clamp (F32.mul (.fin aa0) (F32.ofInt 255)) (F32.ofInt 0) (F32.ofInt 255) = .fin qa ∧
      Utils.draw_color_blend (.fin r) (.fin g) (.fin b) (.fin a) (.fin r) (.fin g) (.fin b)
        (.fin a) (.fin progress) (.fin aa0) = some ⟨0, 0, 0, specTrunc qa⟩) ∧
    Utils.draw_color_blend (.fin r) (.fin g) (.fin b) (.fin a) (.fin r) (.fin g) (.fin b)
        (.fin a) (.fin progress) .nan = none ∧
    Utils.draw_color_blend (.fin 1) (.fin 1) (.fin 1) (.fin 1) (.fin 1) (.fin 1) (.fin 1)
        (.fin 1) (.fin (1 / 2)) x ≠ some ⟨255, 255, 255, 255⟩ := by
  refine ⟨?_, draw_color_blend_nan_alpha _ _ _ _ _ _ _ _ _, ?_⟩
  · obtain ⟨qa, ca, _, _, hd⟩ := self_blend r g b a progress (.fin aa0) (by simp)
    exact ⟨qa, ca, hd⟩
  · by_cases hx : x = .nan
    · rw [hx, draw_color_blend_nan_alpha]
      simp
    · obtain ⟨qa, _, _, _, hd⟩ := self_blend 1 1 1 1 (1 / 2) x hx
      rw [hd]
      intro h
      injection h with h
      injection h with h1
      exact absurd h1 (by decide)


/-- C1 (as amended): for every 32-bit integer point `(x, y)`, every finite
camera offset and every finite depth `d ≥ 0`, the divisor `d + 1` is a finite
float `≥ 1`, hence not zero, and the two values
`x/(d+1) - cameraX/(d+1) + 320` and `y/(d+1) - cameraY/(d+1) + 320`, computed in
float arithmetic from the point converted to float, are finite; whenever their
truncations toward zero fit in a 32-bit `int`, `Projection::world_to_screen`
overwrites the point with these truncations, and otherwise the conversion is
undefined.  `320 = SCREEN_WIDTH/2 = SCREEN_HEIGHT/2`. -/
theorem C1_world_to_screen_in_range (x y : Int) (cameraX cameraY d : ℚ) (cameraZ : F32)
    (hx : INT_MIN ≤ x ∧ x ≤ INT_MAX) (hy : INT_MIN ≤ y ∧ y ≤ INT_MAX)
    (hcx : |cameraX| ≤ FLT_MAX) (hcy : |cameraY| ≤ FLT_MAX) (hd0 : 0 ≤ d) (hd1 : d ≤ FLT_MAX) :
    ∃ e vx vy : ℚ,
      F32.add (.fin d) (F32.ofInt 1) = .fin e ∧ 1 ≤ e ∧
      F32.add (F32.sub (F32.div (F32.ofInt x) (F32.add (.fin d) (F32.ofInt 1)))
        (F32.div (.fin cameraX) (F32.add (.fin d) (F32.ofInt 1)))) (F32.ofInt 320) = .fin vx ∧
      F32.add (F32.sub (F32.div (F32.ofInt y) (F32.add (.fin d) (F32.ofInt 1)))
        (F32.div (.fin cameraY) (F32.add (.fin d) (F32.ofInt 1)))) (F32.ofInt 320) = .fin vy ∧
      ((INT_MIN ≤ specTrunc vx ∧ specTrunc vx ≤ INT_MAX) ∧
        (INT_MIN ≤ specTrunc vy ∧ specTrunc vy ≤ INT_MAX) →
        (⟨.fin cameraX, .fin cameraY, cameraZ⟩ : Projection).world_to_screen x y (.fin d)
          = some (specTrunc vx, specTrunc vy)) ∧
      (¬ ((INT_MIN ≤ specTrunc vx ∧ specTrunc vx ≤ INT_MAX) ∧
        (INT_MIN ≤ specTrunc vy ∧ specTrunc vy ≤ INT_MAX)) →
        (⟨.fin cameraX, .fin cameraY, cameraZ⟩ : Projection).world_to_screen x y (.fin d)
          = none) ∧
      Int.tdiv SCREEN_WIDTH 2 = 320 ∧ Int.tdiv SCREEN_HEIGHT 2 = 320 := by
  obtain ⟨e, he, he1⟩ := depth_plus_one d hd0 hd1
  rw [he]
  obtain ⟨vx, hvx, _⟩ := screen_value_finite x cameraX e hx hcx he1
  obtain ⟨vy, hvy, _⟩ := screen_value_finite y cameraY e hy hcy he1
  refine ⟨e, vx, vy, rfl, he1, hvx, hvy, ?_, ?_, half_screen_width, half_screen_height⟩
  · rintro ⟨⟨a1, a2⟩, ⟨b1, b2⟩⟩
    simp only [Projection.world_to_screen, he, half_screen_width, half_screen_height, hvx, hvy,
      float_to_int_of_range a1 a2, float_to_int_of_range b1 b2, Option.bind_eq_bind,
      Option.some_bind, Option.pure_def]
  · intro hn
    simp only [Projection.world_to_screen, he, half_screen_width, half_screen_height, hvx, hvy,
      float_to_int, truncate_eq_specTrunc, Option.bind_eq_bind, Option.pure_def]
    by_cases hxr : INT_MIN ≤ specTrunc vx ∧ specTrunc vx ≤ INT_MAX
    · have hyr : ¬ (INT_MIN ≤ specTrunc vy ∧ specTrunc vy ≤ INT_MAX) := fun h => hn ⟨hxr, h⟩
      rw [if_pos hxr, if_neg hyr]
      rfl
    · rw [if_neg hxr]
      rfl


/-- Witness of C1 at camera `(1000, -50)`, point `(7, -9)` and depth `1`: every
operation is exact, the values are `-176.5` and `340.5`, and the point becomes
`(-176, 340)`. -/
theorem C1_world_to_screen_in_range_witness :
    (INT_MIN ≤ (7 : Int) ∧ (7 : Int) ≤ INT_MAX) ∧ (INT_MIN ≤ (-9 : Int) ∧ (-9 : Int) ≤ INT_MAX) ∧
    |(1000 : ℚ)| ≤ FLT_MAX ∧ |(-50 : ℚ)| ≤ FLT_MAX ∧ (0 : ℚ) ≤ 1 ∧ (1 : ℚ) ≤ FLT_MAX ∧
    (⟨.fin 1000, .fin (-50), .fin 0⟩ : Projection).world_to_screen 7 (-9) (.fin 1)
      = some (-176, 340) := by
  have hx : INT_MIN ≤ (7 : Int) ∧ (7 : Int) ≤ INT_MAX := by decide
  have hy : INT_MIN ≤ (-9 : Int) ∧ (-9 : Int) ≤ INT_MAX := by decide
  have hcx : |(1000 : ℚ)| ≤ FLT_MAX := by unfold FLT_MAX; norm_num [abs_le]
  have hcy : |(-50 : ℚ)| ≤ FLT_MAX := by unfold FLT_MAX; norm_num [abs_le]
  have hd1 : (1 : ℚ) ≤ FLT_MAX := by unfold FLT_MAX; norm_num
  have hthr : ∀ v : ℚ, |v| ≤ 1000 → |v| < overflowThreshold := by
    intro v hv; unfold overflowThreshold; exact lt_of_le_of_lt hv (by norm_num)
  obtain ⟨e, vx, vy, he, _, hvx, hvy, hsome, _⟩ :=
    C1_world_to_screen_in_range 7 (-9) 1000 (-50) 1 (.fin 0) hx hy hcx hcy (by norm_num) hd1
  have z : F32.add (.fin 1) (F32.ofInt 1) = .fin 2 := by
    rw [ofInt_one]
    exact rnd_val 2 0 (by norm_num) (by norm_num) (by norm_num) (by norm_num)
      (hthr _ (by norm_num [abs_le]))
  have i7 : F32.ofInt 7 = .fin 7 := by simpa using ofInt_small 7 (by norm_num)
  have i9 : F32.ofInt (-9) = .fin (-9) := by simpa using ofInt_small (-9) (by norm_num)
  have ex : vx = -353 / 2 := by
    have q1 : F32.div (.fin 7) (.fin 2) = .fin (7 / 2) := by
      simp only [F32.div, if_neg (by norm_num : (2 : ℚ) ≠ 0)]
      exact rnd_val 7 (-1) rfl (by norm_num) (by norm_num) (by norm_num)
        (hthr _ (by norm_num [abs_le]))
    have q2 : F32.div (.fin 1000) (.fin 2) = .fin 500 := by
      simp only [F32.div, if_neg (by norm_num : (2 : ℚ) ≠ 0)]
      exact rnd_val 500 0 (by norm_num) (by norm_num) (by norm_num) (by norm_num)
        (hthr _ (by norm_num [abs_le]))
    have q3 : F32.sub (.fin (7 / 2)) (.fin 500) = .fin (-993 / 2) :=
      rnd_val (-993) (-1) (by norm_num) (by norm_num) (by norm_num) (by norm_num)
        (hthr _ (by norm_num [abs_le]))
    have q4 : F32.add (.fin (-993 / 2)) (.fin 320) = .fin (-353 / 2) :=
      rnd_val (-353) (-1) (by norm_num) (by norm_num) (by norm_num) (by norm_num)
        (hthr _ (by norm_num [abs_le]))
    rw [z, i7, ofInt_320, q1, q2, q3, q4] at hvx
    injection hvx with h
    exact h.symm
  have ey : vy = 681 / 2 := by
    have q1 : F32.div (.fin (-9)) (.fin 2) = .fin (-9 / 2) := by
      simp only [F32.div, if_neg (by norm_num : (2 : ℚ) ≠ 0)]
      exact rnd_val (-9) (-1) rfl (by norm_num) (by norm_num) (by norm_num)
        (hthr _ (by norm_num [abs_le]))
    have q2 : F32.div (.fin (-50)) (.fin 2) = .fin (-25) := by
      simp only [F32.div, if_neg (by norm_num : (2 : ℚ) ≠ 0)]
      exact rnd_val (-25) 0 (by norm_num) (by norm_num) (by norm_num) (by norm_num)
        (hthr _ (by norm_num [abs_le]))
    have q3 : F32.sub (.fin (-9 / 2)) (.fin (-25)) = .fin (41 / 2) :=
      rnd_val 41 (-1) (by norm_num) (by norm_num) (by norm_num) (by norm_num)
        (hthr _ (by norm_num [abs_le]))
    have q4 : F32.add (.fin (41 / 2)) (.fin 320) = .fin (681 / 2) :=
      rnd_val 681 (-1) (by norm_num) (by norm_num) (by norm_num) (by norm_num)
        (hthr _ (by norm_num [abs_le]))
    rw [z, i9, ofInt_320, q1, q2, q3, q4] at hvy
    injection hvy with h
    exact h.symm
  have tx : specTrunc vx = -176 := by
    rw [ex]; exact specTrunc_eq_of_neg (by norm_num) (by norm_num) (by norm_num)
  have ty : specTrunc vy = 340 := by
    rw [ey]; exact specTrunc_eq_of_nonneg (by norm_num) (by norm_num) (by norm_num)
  rw [tx, ty] at hsome
  exact ⟨hx, hy, hcx, hcy, by norm_num, hd1, hsome (by decide)⟩

/-- C1 (counterexample to the claim as stated): with camera `(0, 0)`, depth `0`
and the point `(2147483647, 0)` the claim's value is
`trunc(2147483647 + 320) = 2147483967`; the float value is `2147483904`; no
32-bit `int` holds either, so the conversion is undefined and the point is not
overwritten with the truncated value. -/
theorem C1_counterexample_int_overflow :
    (0 : ℚ) ≤ 0 ∧
    specTrunc (((2147483647 : Int) : ℚ) / (0 + 1) - (0 : ℚ) / (0 + 1) + 320) = 2147483967 ∧
    F32.add (F32.sub (F32.div (F32.ofInt 2147483647) (F32.add (.fin 0) (F32.ofInt 1)))
        (F32.div (.fin 0) (F32.add (.fin 0) (F32.ofInt 1)))) (F32.ofInt 320)
      = .fin 2147483904 ∧
    (⟨.fin 0, .fin 0, .fin 0⟩ : Projection).world_to_screen 2147483647 0 (.fin 0) = none := by
  have hthr : ∀ v : ℚ, |v| ≤ 4294967296 → |v| < overflowThreshold := by
    intro v hv; unfold overflowThreshold; exact lt_of_le_of_lt hv (by norm_num)
  have e : (((2147483647 : Int) : ℚ) / (0 + 1) - (0 : ℚ) / (0 + 1) + 320)
      = ((2147483967 : Int) : ℚ) := by norm_num
  have hs : specTrunc (((2147483647 : Int) : ℚ) / (0 + 1) - (0 : ℚ) / (0 + 1) + 320)
      = 2147483967 := by
    rw [e, specTrunc_intCast]
  have z : F32.add (.fin 0) (F32.ofInt 1) = .fin 1 := by
    rw [ofInt_one]
    exact rnd_val 1 0 (by norm_num) (by norm_num) (by norm_num) (by norm_num)
      (hthr _ (by norm_num [abs_le]))
  have i : F32.ofInt 2147483647 = .fin 2147483648 := by
    show rnd ((2147483647 : Int) : ℚ) = _
    exact rnd_val_pos 30 16777216 (by norm_num) (by norm_num) (by norm_num) (by norm_num)
      (by norm_num) (by norm_num) (by unfold overflowThreshold; norm_num)
  have q1 : F32.div (.fin 2147483648) (.fin 1) = .fin 2147483648 := by
    simp only [F32.div, if_neg (by norm_num : (1 : ℚ) ≠ 0)]
    exact rnd_val 8388608 8 (by norm_num) (by norm_num) (by norm_num) (by norm_num)
      (hthr _ (by norm_num [abs_le]))
  have q2 : F32.div (.fin 0) (.fin 1) = .fin 0 := by
    simp only [F32.div, if_neg (by norm_num : (1 : ℚ) ≠ 0)]
    exact rnd_val 0 0 (by norm_num) (by norm_num) (by norm_num) (by norm_num)
      (hthr _ (by norm_num [abs_le]))
  have q3 : F32.sub (.fin 2147483648) (.fin 0) = .fin 2147483648 :=
    rnd_val 8388608 8 (by norm_num) (by norm_num) (by norm_num) (by norm_num)
      (hthr _ (by norm_num [abs_le]))
  have q4 : F32.add (.fin 2147483648) (.fin 320) = .fin 2147483904 :=
    rnd_val_pos 31 8388609 (by norm_num) (by norm_num) (by norm_num) (by norm_num)
      (by norm_num) (by norm_num) (by unfold overflowThreshold; norm_num)
  have hv : F32.add (F32.sub (F32.div (F32.ofInt 2147483647) (F32.add (.fin 0) (F32.ofInt 1)))
        (F32.div (.fin 0) (F32.add (.fin 0) (F32.ofInt 1)))) (F32.ofInt 320)
      = .fin 2147483904 := by
    rw [z, i, ofInt_320, q1, q2, q3, q4]
  have hf : float_to_int (.fin 2147483904) = none := by
    apply float_to_int_of_gt
    have : specTrunc (2147483904 : ℚ) = 2147483904 := by
      have := specTrunc_intCast 2147483904
      simpa using this
    rw [this]
    decide
  refine ⟨le_refl _, hs, hv, ?_⟩
  simp only [Projection.world_to_screen, half_screen_width, hv, hf, Option.bind_eq_bind,
    Option.none_bind]


/-- C5: on a mesh whose `size` is the number of vertices in its buffer,
`mesh::translate(t)` succeeds, leaves the vertex count unchanged and replaces
the vertex `(x, y, z)` at each index by `(x + t.x, y + t.y, z + t.z)` at the
same index, `+` being the float addition of the source; the single vertex
`(0,0,0)` translated by `(2,3,4)` becomes `(2,3,4)`. -/
theorem C5_translate_pointwise (m : mesh) (t : vec3f) (h : m.size = m.vertexBuffer.length) :
    (∃ m1, m.translate t = some m1 ∧ m1.size = m.size ∧
      m1.vertexBuffer.length = m.vertexBuffer.length ∧
      ∀ (i : Nat) (v : vec3f), m.vertexBuffer[i]? = some v →
        m1.vertexBuffer[i]? =
          some (⟨F32.add v.x t.x, F32.add v.y t.y, F32.add v.z t.z⟩ : vec3f)) ∧
    (⟨[⟨.fin 0, .fin 0, .fin 0⟩], 1⟩ : mesh).translate ⟨.fin 2, .fin 3, .fin 4⟩
      = some ⟨[⟨.fin 2, .fin 3, .fin 4⟩], 1⟩ := by
  constructor
  · refine ⟨_, translate_eq_map m t h, rfl, by simp, ?_⟩
    intro i v hv
    simp [List.getElem?_map, hv, moved]
  · rw [translate_eq_map _ _ (by simp)]
    have h2 := add_small_ints 0 2 (by norm_num)
    have h3 := add_small_ints 0 3 (by norm_num)
    have h4 := add_small_ints 0 4 (by norm_num)
    norm_num at h2 h3 h4
    simp [moved, h2, h3, h4]

/-- Witness of C5 on the two-vertex mesh `(16777216, 1/2, -1), (1, 2, 3)`
translated by `(1, 2^-25, 1)`: the first vertex becomes `(16777216, 1/2, 0)`,
both inexact sums being rounded back, the second `(2, 2, 4)`. -/
theorem C5_translate_pointwise_witness :
    ((2 : Int) = ([⟨.fin 16777216, .fin (1 / 2), .fin (-1)⟩, ⟨.fin 1, .fin 2, .fin 3⟩] :
      List vec3f).length) ∧
    (⟨[⟨.fin 16777216, .fin (1 / 2), .fin (-1)⟩, ⟨.fin 1, .fin 2, .fin 3⟩], 2⟩ : mesh).translate
        ⟨.fin 1, .fin (1 / 33554432), .fin 1⟩ =
      some ⟨[⟨.fin 16777216, .fin (1 / 2), .fin 0⟩, ⟨.fin 2, .fin 2, .fin 4⟩], 2⟩ := by
  refine ⟨by simp, ?_⟩
  have hthr : ∀ v : ℚ, |v| ≤ 4294967296 → |v| < overflowThreshold := by
    intro v hv; unfold overflowThreshold; exact lt_of_le_of_lt hv (by norm_num)
  have a1 : F32.add (.fin 16777216) (.fin 1) = .fin 16777216 :=
    rnd_val_tie 24 8388608 (by norm_num) (by norm_num) (by norm_num) (by norm_num)
      (by decide) (by norm_num) (by unfold overflowThreshold; norm_num)
  have a2 : F32.add (.fin (1 / 2)) (.fin (1 / 33554432)) = .fin (1 / 2) :=
    rnd_val_tie (-1) 8388608 (by norm_num) (by norm_num) (by norm_num) (by norm_num)
      (by decide) (by norm_num) (by unfold overflowThreshold; norm_num)
  have a3 : F32.add (.fin (-1)) (.fin 1) = .fin 0 :=
    rnd_val 0 0 (by norm_num) (by norm_num) (by norm_num) (by norm_num)
      (hthr _ (by norm_num [abs_le]))
  have b1 : F32.add (.fin 1) (.fin 1) = .fin 2 :=
    rnd_val 2 0 (by norm_num) (by norm_num) (by norm_num) (by norm_num)
      (hthr _ (by norm_num [abs_le]))
  have b2 : F32.add (.fin 2) (.fin (1 / 33554432)) = .fin 2 :=
    rnd_val_pos 1 8388608 (by norm_num) (by norm_num) (by norm_num) (by norm_num)
      (by norm_num) (by norm_num) (by unfold overflowThreshold; norm_num)
  have b3 : F32.add (.fin 3) (.fin 1) = .fin 4 :=
    rnd_val 4 0 (by norm_num) (by norm_num) (by norm_num) (by norm_num)
      (hthr _ (by norm_num [abs_le]))
  obtain ⟨m1, hm, hsize, hlen, hpt⟩ :=
    (C5_translate_pointwise
      ⟨[⟨.fin 16777216, .fin (1 / 2), .fin (-1)⟩, ⟨.fin 1, .fin 2, .fin 3⟩], 2⟩
      ⟨.fin 1, .fin (1 / 33554432), .fin 1⟩ (by simp)).1
  rw [hm]
  have h0 := hpt 0 ⟨.fin 16777216, .fin (1 / 2), .fin (-1)⟩ (by simp)
  have h1 := hpt 1 ⟨.fin 1, .fin 2, .fin 3⟩ (by simp)
  simp only [a1, a2, a3, b1, b2, b3] at h0 h1
  obtain ⟨vb, sz⟩ := m1
  simp only at hsize hlen h0 h1
  match vb, hlen, h0, h1 with
  | [a, b], _, h0, h1 =>
    simp only [List.getElem?_cons_zero, List.getElem?_cons_succ, Option.some.injEq] at h0 h1
    subst h0 h1 hsize
    rfl

/-- C6: for every stream of non-negative values returned by `rand()`,
`Windmill::load()` on a freshly constructed scene succeeds and leaves exactly
200 meshes, each of size 8 whose buffer holds the 8 corners of the unit cube in
the order of the source, all shifted by one integer offset `(ox, oy, oz)` with
`0 ≤ ox ≤ 9`, `0 ≤ oy ≤ 29`, `0 ≤ oz ≤ 4`. -/
theorem C6_load_makes_200_cubes (rand : Nat → Int) (hr : ∀ k, 0 ≤ rand k) :
    ∃ w, Windmill.initial.load rand = some w ∧ w.meshes.length = 200 ∧
      ∀ m ∈ w.meshes, m.size = 8 ∧ m.vertexBuffer.length = 8 ∧
        ∃ ox oy oz : Int, (0 ≤ ox ∧ ox ≤ 9) ∧ (0 ≤ oy ∧ oy ≤ 29) ∧ (0 ≤ oz ∧ oz ≤ 4) ∧
          m.vertexBuffer =
            [⟨.fin (0 + (ox : ℚ)), .fin (0 + (oy : ℚ)), .fin (0 + (oz : ℚ))⟩,
             ⟨.fin (0 + (ox : ℚ)), .fin (0 + (oy : ℚ)), .fin (1 + (oz : ℚ))⟩,
             ⟨.fin (1 + (ox : ℚ)), .fin (0 + (oy : ℚ)), .fin (1 + (oz : ℚ))⟩,
             ⟨.fin (1 + (ox : ℚ)), .fin (0 + (oy : ℚ)), .fin (0 + (oz : ℚ))⟩,
             ⟨.fin (0 + (ox : ℚ)), .fin (1 + (oy : ℚ)), .fin (1 + (oz : ℚ))⟩,
             ⟨.fin (1 + (ox : ℚ)), .fin (1 + (oy : ℚ)), .fin (1 + (oz : ℚ))⟩,
             ⟨.fin (1 + (ox : ℚ)), .fin (1 + (oy : ℚ)), .fin (0 + (oz : ℚ))⟩,
             ⟨.fin (0 + (ox : ℚ)), .fin (1 + (oy : ℚ)), .fin (0 + (oz : ℚ))⟩] := by
  obtain ⟨added, hl, hlen, hall⟩ := loadLoop_spec rand
    (fun m => m.size = 8 ∧ m.vertexBuffer.length = 8 ∧
        ∃ ox oy oz : Int, (0 ≤ ox ∧ ox ≤ 9) ∧ (0 ≤ oy ∧ oy ≤ 29) ∧ (0 ≤ oz ∧ oz ≤ 4) ∧
          m.vertexBuffer =
            [⟨.fin (0 + (ox : ℚ)), .fin (0 + (oy : ℚ)), .fin (0 + (oz : ℚ))⟩,
             ⟨.fin (0 + (ox : ℚ)), .fin (0 + (oy : ℚ)), .fin (1 + (oz : ℚ))⟩,
             ⟨.fin (1 + (ox : ℚ)), .fin (0 + (oy : ℚ)), .fin (1 + (oz : ℚ))⟩,
             ⟨.fin (1 + (ox : ℚ)), .fin (0 + (oy : ℚ)), .fin (0 + (oz : ℚ))⟩,
             ⟨.fin (0 + (ox : ℚ)), .fin (1 + (oy : ℚ)), .fin (1 + (oz : ℚ))⟩,
             ⟨.fin (1 + (ox : ℚ)), .fin (1 + (oy : ℚ)), .fin (1 + (oz : ℚ))⟩,
             ⟨.fin (1 + (ox : ℚ)), .fin (1 + (oy : ℚ)), .fin (0 + (oz : ℚ))⟩,
             ⟨.fin (0 + (ox : ℚ)), .fin (1 + (oy : ℚ)), .fin (0 + (oz : ℚ))⟩])
    (by
      intro c
      have tx := tmod_range (hr c) (by decide : (0 : Int) < 10)
      have ty := tmod_range (hr (c + 1)) (by decide : (0 : Int) < 30)
      have tz := tmod_range (hr (c + 2)) (by decide : (0 : Int) < 5)
      refine ⟨_, translate_cube _ _ _ ⟨tx.1, by omega⟩ ⟨ty.1, by omega⟩ ⟨tz.1, by omega⟩,
        rfl, rfl, Int.tmod (rand c) 10, Int.tmod (rand (c + 1)) 30,
        Int.tmod (rand (c + 2)) 5, ⟨tx.1, by omega⟩, ⟨ty.1, by omega⟩, ⟨tz.1, by omega⟩, rfl⟩)
    200 0 Windmill.initial.meshes
  refine ⟨{ Windmill.initial with meshes := Windmill.initial.meshes ++ added }, ?_, ?_, ?_⟩
  · simp only [Windmill.load, hl]
  · simp [Windmill.initial, hlen]
  · intro m hm
    apply hall m
    simpa [Windmill.initial] using hm

/-- Witness of C6 for the stream `rand k = 7 * k + 3`. -/
theorem C6_load_makes_200_cubes_witness :
    (∀ k : Nat, (0 : Int) ≤ (fun k : Nat => (7 * k + 3 : Int)) k) ∧
    ∃ w, Windmill.initial.load (fun k : Nat => (7 * k + 3 : Int)) = some w ∧
      w.meshes.length = 200 ∧ ∀ m ∈ w.meshes, m.size = 8 ∧ m.vertexBuffer.length = 8 :=
  have hr : ∀ k : Nat, (0 : Int) ≤ (fun k : Nat => (7 * k + 3 : Int)) k := by
    intro k; show (0 : Int) ≤ 7 * (k : Int) + 3; omega
  ⟨hr, by
    obtain ⟨w, hw, hlen, hm⟩ := C6_load_makes_200_cubes _ hr
    exact ⟨w, hw, hlen, fun m h => ⟨(hm m h).1, (hm m h).2.1⟩⟩⟩


/-- C4 (as amended): from the initial scene (angle `0`), after any finite run
of `update` calls whose frame times are all non-negative, interleaved with any
`handle_event` calls, the angle is a finite value with `0 ≤ angle < 360`. -/
theorem C4_angle_range_nonneg_time (steps : List Step)
    (h : ∀ st ∈ steps, ∀ dt, st.timeTook? = some dt → F32.le (.fin 0) dt = true) :
    ∃ a, (run (Windmill.initial, Projection.initial) steps).1.angle = .fin a ∧
      0 ≤ a ∧ a < 360 :=
  run_angle_range steps (Windmill.initial, Projection.initial)
    ⟨0, rfl, le_refl _, by norm_num⟩ h

/-- Witness of C4: `update(70)`, a motion event, `update(3)`, `update(0)`; the
angle goes `350`, then `365` which is reset to `0`, and stays `0`. -/
theorem C4_angle_range_nonneg_time_witness :
    (∀ st ∈ [Step.update (.fin 70), Step.event ⟨SDL_MOUSEMOTION⟩ 5 600, Step.update (.fin 3),
        Step.update (.fin 0)],
        ∀ dt, st.timeTook? = some dt → F32.le (.fin 0) dt = true) ∧
    ∃ a, (run (Windmill.initial, Projection.initial)
      [Step.update (.fin 70), Step.event ⟨SDL_MOUSEMOTION⟩ 5 600, Step.update (.fin 3),
        Step.update (.fin 0)]).1.angle = .fin a ∧ 0 ≤ a ∧ a < 360 :=
  have hyp : ∀ st ∈ [Step.update (.fin 70), Step.event ⟨SDL_MOUSEMOTION⟩ 5 600,
      Step.update (.fin 3), Step.update (.fin 0)],
      ∀ dt, st.timeTook? = some dt → F32.le (.fin 0) dt = true := by
    intro st hst dt hdt
    simp only [List.mem_cons, List.mem_singleton, List.not_mem_nil, or_false] at hst
    rcases hst with rfl | rfl | rfl | rfl <;> simp [Step.timeTook?] at hdt <;> subst hdt <;>
      simp [F32.le]
  ⟨hyp, C4_angle_range_nonneg_time _ hyp⟩

/-- C4 (counterexample to the claim as stated): from the initial scene one
`update(-1)` leaves the angle at `-5`, below `0`. -/
theorem C4_counterexample_negative_time :
    (run (Windmill.initial, Projection.initial) [Step.update (.fin (-1))]).1.angle = .fin (-5) ∧
    F32.le (.fin 0)
      (run (Windmill.initial, Projection.initial) [Step.update (.fin (-1))]).1.angle = false := by
  have hthr : ∀ v : ℚ, |v| ≤ 1000 → |v| < overflowThreshold := by
    intro v hv; unfold overflowThreshold; exact lt_of_le_of_lt hv (by norm_num)
  have m : F32.mul (.fin 5) (.fin (-1)) = .fin (-5) :=
    rnd_val (-5) 0 (by norm_num) (by norm_num) (by norm_num) (by norm_num)
      (hthr _ (by norm_num [abs_le]))
  have s : F32.add (.fin 0) (.fin (-5)) = .fin (-5) :=
    rnd_val (-5) 0 (by norm_num) (by norm_num) (by norm_num) (by norm_num)
      (hthr _ (by norm_num [abs_le]))
  have h : (run (Windmill.initial, Projection.initial) [Step.update (.fin (-1))]).1.angle
      = .fin (-5) := by
    simp only [run, List.foldl, Step.apply, Windmill.update, Windmill.initial, ofInt_five, m, s,
      ofInt_360, F32.ge, F32.le]
    norm_num
  exact ⟨h, by rw [h]; simp [F32.le]⟩


/-- C9: for every finite angle `a` and frame time `dt`, `Windmill::update(dt)`
sets the angle to the float sum `a + 5*dt` when that sum is below `360` and to
exactly `0` otherwise (a reset, not a reduction modulo 360).  From angle `0`,
`update(1)` leaves `5`; from `358`, `update(1)` leaves `0`; from `360 - 2^-15`,
`update(2^-18)` leaves `0` because the float sum is `360`. -/
theorem C9_update_angle (w : Windmill) (p : Projection) (a dt : ℚ) :
    (({ w with angle := .fin a } : Windmill).update p (.fin dt)).1.angle =
      (if F32.lt (F32.add (.fin a) (F32.mul (F32.ofInt 5) (.fin dt))) (F32.ofInt 360) = true
        then F32.add (.fin a) (F32.mul (F32.ofInt 5) (.fin dt)) else .fin 0) ∧
    (Windmill.initial.update p (.fin 1)).1.angle = .fin 5 ∧
    (({ Windmill.initial with angle := .fin 358 } : Windmill).update p (.fin 1)).1.angle
      = .fin 0 ∧
    (({ Windmill.initial with angle := .fin (360 - 1 / 32768) } : Windmill).update p
      (.fin (1 / 262144))).1.angle = .fin 0 := by
  have hthr : ∀ v : ℚ, |v| ≤ 1000 → |v| < overflowThreshold := by
    intro v hv; unfold overflowThreshold; exact lt_of_le_of_lt hv (by norm_num)
  have gen : ∀ (w : Windmill) (a dt : ℚ),
      (({ w with angle := .fin a } : Windmill).update p (.fin dt)).1.angle =
      (if F32.lt (F32.add (.fin a) (F32.mul (F32.ofInt 5) (.fin dt))) (F32.ofInt 360) = true
        then F32.add (.fin a) (F32.mul (F32.ofInt 5) (.fin dt)) else .fin 0) := by
    intro w a dt
    simp only [Windmill.update, ofInt_360, ofInt_zero,
      ge_eq_not_lt _ 360 (angle_sum_ne_nan a dt)]
    cases F32.lt (F32.add (.fin a) (F32.mul (F32.ofInt 5) (.fin dt))) (.fin 360) <;> simp
  refine ⟨gen w a dt, ?_, ?_, ?_⟩
  · have m : F32.mul (.fin 5) (.fin 1) = .fin 5 :=
      rnd_val 5 0 (by norm_num) (by norm_num) (by norm_num) (by norm_num)
        (hthr _ (by norm_num [abs_le]))
    have s : F32.add (.fin 0) (.fin 5) = .fin 5 :=
      rnd_val 5 0 (by norm_num) (by norm_num) (by norm_num) (by norm_num)
        (hthr _ (by norm_num [abs_le]))
    have := gen Windmill.initial 0 1
    rw [ofInt_five, m, s, ofInt_360] at this
    simpa [F32.lt, Windmill.initial] using this
  · have m : F32.mul (.fin 5) (.fin 1) = .fin 5 :=
      rnd_val 5 0 (by norm_num) (by norm_num) (by norm_num) (by norm_num)
        (hthr _ (by norm_num [abs_le]))
    have s : F32.add (.fin 358) (.fin 5) = .fin 363 :=
      rnd_val 363 0 (by norm_num) (by norm_num) (by norm_num) (by norm_num)
        (hthr _ (by norm_num [abs_le]))
    have := gen Windmill.initial 358 1
    rw [ofInt_five, m, s, ofInt_360] at this
    simpa [F32.lt] using this
  · have m : F32.mul (.fin 5) (.fin (1 / 262144)) = .fin (5 / 262144) :=
      rnd_val 5 (-18) (by norm_num) (by norm_num) (by norm_num) (by norm_num)
        (hthr _ (by norm_num [abs_le]))
    have s : F32.add (.fin (360 - 1 / 32768)) (.fin (5 / 262144)) = .fin 360 :=
      rnd_val_pos 8 11796480 (by norm_num) (by norm_num) (by norm_num) (by norm_num)
        (by norm_num) (by norm_num) (by unfold overflowThreshold; norm_num)
    have := gen Windmill.initial (360 - 1 / 32768) (1 / 262144)
    rw [ofInt_five, m, s, ofInt_360] at this
    simpa [F32.lt] using this

/-- C10: every `update` leaves the pending velocity `(dx, dy) = (0, 0)`, so a
second `update(dt2)` that follows `update(dt1)` with only non-motion events in
between leaves the camera position `(cx, cy)` and the camera offset held by
`Projection` unchanged. -/
theorem C10_second_update_keeps_camera (w : Windmill) (p : Projection) (dt1 : F32) (dt2 : ℚ)
    (events : List Step)
    (h : ∀ st ∈ events, st.timeTook? = none ∧ st.isMotion = false) :
    (w.update p dt1).1.dx = 0 ∧ (w.update p dt1).1.dy = 0 ∧
    (run (run (w.update p dt1) events) [Step.update (.fin dt2)]).1.cx = (w.update p dt1).1.cx ∧
    (run (run (w.update p dt1) events) [Step.update (.fin dt2)]).1.cy = (w.update p dt1).1.cy ∧
    (run (run (w.update p dt1) events) [Step.update (.fin dt2)]).2 = (w.update p dt1).2 ∧
    (w.update p dt1).2.cameraX = (w.update p dt1).1.cx ∧
    (w.update p dt1).2.cameraY = (w.update p dt1).1.cy := by
  rw [run_of_idle events _ h]
  simp only [run, List.foldl, Step.apply, Windmill.update, Projection.adjust_camera,
    mul_zero_fin, add_add_zero, and_self]

/-- Witness of C10: `update(1/2)` after a pending velocity `(2000, -2000)`, then
a quit event, then `update(3)`: the camera stays at `(1000, -1000)`. -/
theorem C10_second_update_keeps_camera_witness :
    (∀ st ∈ [Step.event ⟨SDL_QUIT⟩ 10 10], st.timeTook? = none ∧ st.isMotion = false) ∧
    (run (run ((⟨[], 2000, -2000, .fin 0, .fin 0, .fin 0⟩ : Windmill).update Projection.initial
      (.fin (1 / 2))) [Step.event ⟨SDL_QUIT⟩ 10 10]) [Step.update (.fin 3)]).1.cx = .fin 1000 ∧
    (run (run ((⟨[], 2000, -2000, .fin 0, .fin 0, .fin 0⟩ : Windmill).update Projection.initial
      (.fin (1 / 2))) [Step.event ⟨SDL_QUIT⟩ 10 10]) [Step.update (.fin 3)]).1.cy
        = .fin (-1000) := by
  have hthr : ∀ v : ℚ, |v| ≤ 1000 → |v| < overflowThreshold := by
    intro v hv; unfold overflowThreshold; exact lt_of_le_of_lt hv (by norm_num)
  have hyp : ∀ st ∈ [Step.event ⟨SDL_QUIT⟩ 10 10],
      st.timeTook? = none ∧ st.isMotion = false := by
    intro st hst
    simp only [List.mem_singleton] at hst
    subst hst
    exact ⟨rfl, by decide⟩
  obtain ⟨_, _, hx, hy, _⟩ := C10_second_update_keeps_camera
    ⟨[], 2000, -2000, .fin 0, .fin 0, .fin 0⟩ Projection.initial (.fin (1 / 2)) 3 _ hyp
  have m1 : F32.mul (.fin 2000) (.fin (1 / 2)) = .fin 1000 :=
    rnd_val 1000 0 (by norm_num) (by norm_num) (by norm_num) (by norm_num)
      (hthr _ (by norm_num [abs_le]))
  have m2 : F32.mul (.fin (-2000)) (.fin (1 / 2)) = .fin (-1000) :=
    rnd_val (-1000) 0 (by norm_num) (by norm_num) (by norm_num) (by norm_num)
      (hthr _ (by norm_num [abs_le]))
  have s1 : F32.add (.fin 0) (.fin 1000) = .fin 1000 :=
    rnd_val 1000 0 (by norm_num) (by norm_num) (by norm_num) (by norm_num)
      (hthr _ (by norm_num [abs_le]))
  have s2 : F32.add (.fin 0) (.fin (-1000)) = .fin (-1000) :=
    rnd_val (-1000) 0 (by norm_num) (by norm_num) (by norm_num) (by norm_num)
      (hthr _ (by norm_num [abs_le]))
  refine ⟨hyp, ?_, ?_⟩
  · rw [hx]
    simp only [Windmill.update, ofInt_2000, m1, s1]
  · rw [hy]
    simp only [Windmill.update, ofInt_neg_2000, m2, s2]

end WindmillModel
